import Mathlib

/-!
Verification development for the txt-map repository.

Shallow embedding of the parts of the code base the specification's claims
talk about, together with theorems settling those claims:

* `src/lib/txt_splitt/gap_handlers.py` — `StrictGapHandler.handle`,
  `RepairingGapHandler.handle` (coverage / gap-repair invariants);
* `src/lib/txt_splitt/types.py` — `OffsetMapping.to_original`, and
  `src/lib/txt_splitt/html_cleaners.py` — `TagStripCleaner.clean`;
* `src/lib/txt_splitt/llms/llamacpp.py` — `LLamaCPP.call`, and
  `src/lib/txt_splitt/llm.py` — `TopicRangeLLM._query_single`;
* `src/lib/tasks/prefix_tree.py` — `build_compressed_trie`;
* `src/lib/storage/submissions.py` — `SubmissionsStorage` (task registry,
  `expand_recalculation_tasks`, `create`, `update_task_status`,
  `get_overall_status`);
* `src/workers.py` — `TASK_DEPENDENCIES`, `Worker._dependencies_met`,
  `Worker.claim_task`;
* `src/handlers/submission_handler.py` — `_queue_all_tasks`.

Python `int` sentence indices are embedded as `Nat` (the data types document
them as 0-based sentence indices / character offsets).  Fallible code is
embedded as `Except`/`Option`.
-/

namespace TxtMap

/-- Stable insertion sort by a strict "key-less-than" test: an element is
inserted after every element strictly smaller and before the first element
greater-or-equal.  This is extensionally the stable sort that Python's
`list.sort(key=...)` performs. -/
def insertLt {α : Type} (lt : α → α → Bool) (x : α) : List α → List α
  | [] => [x]
  | y :: ys => if lt y x then y :: insertLt lt x ys else x :: y :: ys

/-- Stable sort (see `insertLt`). -/
def isortLt {α : Type} (lt : α → α → Bool) : List α → List α
  | [] => []
  | x :: xs => insertLt lt x (isortLt lt xs)

theorem mem_insertLt {α : Type} (lt : α → α → Bool) (x : α) (l : List α) (a : α) :
    a ∈ insertLt lt x l ↔ a = x ∨ a ∈ l := by
  induction l with
  | nil => simp [insertLt]
  | cons y ys ih =>
    simp only [insertLt]
    by_cases h : lt y x = true
    · rw [if_pos h, List.mem_cons, ih]
      simp only [List.mem_cons]
      tauto
    · rw [if_neg h, List.mem_cons]

theorem mem_isortLt {α : Type} (lt : α → α → Bool) (l : List α) (a : α) :
    a ∈ isortLt lt l ↔ a ∈ l := by
  induction l with
  | nil => simp [isortLt]
  | cons y ys ih => simp [isortLt, mem_insertLt, ih]

/-- Lookup with default, embedding Python's `dict.get(key, default)` for the
constant association-list dictionaries below. -/
def lookupD {α : Type} (l : List (String × α)) (k : String) (d : α) : α :=
  match l.lookup k with
  | some v => v
  | none => d

/-- Embeds `SentenceRange` from `src/lib/txt_splitt/types.py`: a range of
sentence indices, both bounds inclusive.  The Python field `end` is named
`stop` here (`end` is a Lean keyword); it is still the inclusive end index. -/
structure SentenceRange where
  start : Nat
  stop : Nat
deriving DecidableEq, Repr

/-- Embeds `SentenceGroup` from `src/lib/txt_splitt/types.py`. -/
structure SentenceGroup where
  label : List String
  ranges : List SentenceRange
deriving DecidableEq, Repr

/-- Embeds the flattening loop shared by the gap handlers
(`for gi, group in enumerate(groups): for r in group.ranges: flat.append((gi, r))`),
with `gi` carried explicitly so the recursion mirrors `enumerate`. -/
def flattenFrom (gi : Nat) : List SentenceGroup → List (Nat × SentenceRange)
  | [] => []
  | g :: gs => g.ranges.map (fun r => (gi, r)) ++ flattenFrom (gi + 1) gs

/-- Flatten all `(group_index, range)` pairs, as the gap handlers do. -/
def flatten (groups : List SentenceGroup) : List (Nat × SentenceRange) :=
  flattenFrom 0 groups

/-- Strict lexicographic comparison on the sort key
`lambda x: (x[1].start, x[1].end)` used by `flat.sort` in both handlers. -/
def rangeLtKey (a b : Nat × SentenceRange) : Bool :=
  decide (a.2.start < b.2.start ∨ (a.2.start = b.2.start ∧ a.2.stop < b.2.stop))

/-- Does range `r` contain sentence index `i` (both bounds inclusive)? -/
def coversB (r : SentenceRange) (i : Nat) : Bool :=
  decide (r.start ≤ i ∧ i ≤ r.stop)

/-- Embeds the result-building loop shared by both handlers
(`for gi, group in enumerate(groups): ... if ranges: result.append(...)`):
group `gi` receives the adjusted ranges tagged `gi`, in their adjusted order;
groups left without ranges are dropped; input order is preserved. -/
def buildGroupsFrom (gi : Nat) (acc : List (Nat × SentenceRange)) :
    List SentenceGroup → List SentenceGroup
  | [] => []
  | g :: gs =>
    let ranges := (acc.filter (fun p => p.1 == gi)).map (·.2)
    if ranges.isEmpty then buildGroupsFrom (gi + 1) acc gs
    else ⟨g.label, ranges⟩ :: buildGroupsFrom (gi + 1) acc gs

/-- Embeds one iteration of the main loop of `RepairingGapHandler.handle`
(`src/lib/txt_splitt/gap_handlers.py` lines 128-152).  The state is the list
of accepted `(group_index, range)` pairs in reverse chronological order
(most recently accepted first) together with `next_expected`; consing to the
head is the source's append to `adjusted[gi]` plus `last_added`, and editing
the head is the source's in-place update of `adjusted[l_gi][l_idx]` (the only
range the source ever edits is the most recently appended one). -/
def repairStep (st : List (Nat × SentenceRange) × Nat) (p : Nat × SentenceRange) :
    List (Nat × SentenceRange) × Nat :=
  let acc := st.1
  let w := st.2
  let gi := p.1
  let r := p.2
  if r.stop < w then st
  else
    let s := max r.start w
    if r.stop < s then st
    else if w < s then
      match acc with
      | [] => ([(gi, ⟨0, r.stop⟩)], r.stop + 1)
      | (pgi, pr) :: rest =>
        ((gi, ⟨s, r.stop⟩) :: (pgi, ⟨pr.start, s - 1⟩) :: rest, r.stop + 1)
    else ((gi, ⟨s, r.stop⟩) :: acc, r.stop + 1)

/-- Embeds the tail of `RepairingGapHandler.handle` (`gap_handlers.py` lines
154-176): extend the last accepted range to `max_index` when a final gap
remains, then rebuild the groups. -/
def repairingFinish (groups : List SentenceGroup) (maxIndex : Nat)
    (st : List (Nat × SentenceRange) × Nat) : Except String (List SentenceGroup) :=
  if st.2 ≤ maxIndex then
    match st.1 with
    | [] => .error "Unable to cover end gap - no groups found"
    | (pgi, pr) :: rest =>
      .ok (buildGroupsFrom 0 (((pgi, ⟨pr.start, maxIndex⟩) :: rest).reverse) groups)
  else .ok (buildGroupsFrom 0 st.1.reverse groups)

/-- Embeds `RepairingGapHandler.handle` (`gap_handlers.py` lines 98-176).
Raising `GapError` is embedded as `Except.error` with the source's message. -/
def repairingHandle (groups : List SentenceGroup) (sentence_count : Nat) :
    Except String (List SentenceGroup) :=
  if sentence_count = 0 then .error "sentence_count must be positive"
  else if groups.isEmpty then .error "No groups provided"
  else repairingFinish groups (sentence_count - 1)
    ((isortLt rangeLtKey (flatten groups)).foldl repairStep ([], 0))

/-- Embeds the accept/trim loop of `StrictGapHandler.handle`
(`gap_handlers.py` lines 50-66): overlaps are trimmed against the
`next_expected` watermark, and any gap raises `GapError` immediately.
Returns the accepted `(group_index, trimmed_range)` pairs in chronological
order together with the final `next_expected`. -/
def strictGo : List (Nat × SentenceRange) → Nat →
    Except String (List (Nat × SentenceRange) × Nat)
  | [], w => .ok ([], w)
  | (gi, r) :: rest, w =>
    if r.stop < w then strictGo rest w
    else
      let s := max r.start w
      if r.stop < s then strictGo rest w
      else if s ≠ w then .error "Gap detected"
      else
        match strictGo rest (r.stop + 1) with
        | .error e => .error e
        | .ok (l, w') => .ok ((gi, ⟨s, r.stop⟩) :: l, w')

/-- Embeds `StrictGapHandler.handle` (`gap_handlers.py` lines 25-87). -/
def strictHandle (groups : List SentenceGroup) (sentence_count : Nat) :
    Except String (List SentenceGroup) :=
  if sentence_count = 0 then .error "sentence_count must be positive"
  else if groups.isEmpty then .error "No groups provided"
  else
    let maxIndex := sentence_count - 1
    let flat := isortLt rangeLtKey (flatten groups)
    match strictGo flat 0 with
    | .error e => .error e
    | .ok (l, w) =>
      if w ≤ maxIndex then .error "Incomplete coverage"
      else .ok (buildGroupsFrom 0 l groups)

/-- Overlap trimming by itself, following the specification's description
("earlier ranges win; later ranges are advanced past the watermark"): the
same accept loop as the handlers but with no gap check and no gap filling.
Used to state what "after trimming overlaps" means in the claims. -/
def trimGo : List (Nat × SentenceRange) → Nat → List (Nat × SentenceRange)
  | [], _ => []
  | (gi, r) :: rest, w =>
    if r.stop < w then trimGo rest w
    else
      let s := max r.start w
      if r.stop < s then trimGo rest w
      else (gi, ⟨s, r.stop⟩) :: trimGo rest (r.stop + 1)

/-- Final watermark of the pure trimming pass. -/
def trimEnd : List (Nat × SentenceRange) → Nat → Nat
  | [], w => w
  | (_, r) :: rest, w =>
    if r.stop < w then trimEnd rest w
    else
      let s := max r.start w
      if r.stop < s then trimEnd rest w
      else trimEnd rest (r.stop + 1)

/-- Do the ranges, in order, tile a contiguous block starting at `w`
(each range starts exactly where the previous one ended)? -/
def tilesFrom : Nat → List (Nat × SentenceRange) → Bool
  | _, [] => true
  | w, (_, r) :: rest => (r.start == w) && tilesFrom (r.stop + 1) rest

/-- Watermark after a tiling list of ranges. -/
def tilesEnd : List (Nat × SentenceRange) → Nat → Nat
  | [], w => w
  | (_, r) :: rest, _ => tilesEnd rest (r.stop + 1)

/-- Invariant of the repairing loop: the accepted ranges, stored most recent
first, tile `[0, w)` exactly (each range starts right after the next one in
the list ends, the oldest starts at 0, and the newest ends at `w - 1`). -/
def RTiles : List (Nat × SentenceRange) → Nat → Prop
  | [], w => w = 0
  | (_, r) :: rest, w => w = r.stop + 1 ∧ r.start ≤ r.stop ∧ RTiles rest r.start

theorem rtiles_count (i : Nat) :
    ∀ (acc : List (Nat × SentenceRange)) (w : Nat), RTiles acc w →
      acc.countP (fun p => coversB p.2 i) = if i < w then 1 else 0 := by
  intro acc
  induction acc with
  | nil =>
    intro w hw
    have : w = 0 := hw
    subst this
    simp
  | cons hd tl ih =>
    intro w hw
    obtain ⟨gi, r⟩ := hd
    obtain ⟨hw1, hw2, hw3⟩ := hw
    subst hw1
    rw [List.countP_cons, ih r.start hw3]
    simp only [coversB, decide_eq_true_eq]
    split_ifs <;> omega

theorem rtiles_stop_lt :
    ∀ (acc : List (Nat × SentenceRange)) (w : Nat), RTiles acc w →
      ∀ p ∈ acc, p.2.stop < w ∧ p.2.start ≤ p.2.stop := by
  intro acc
  induction acc with
  | nil => intro w _ p hp; simp at hp
  | cons hd tl ih =>
    intro w hw p hp
    obtain ⟨gi, r⟩ := hd
    obtain ⟨hw1, hw2, hw3⟩ := hw
    rw [List.mem_cons] at hp
    rcases hp with hp | hp
    · rw [hp]; exact ⟨show r.stop < w by omega, hw2⟩
    · have := ih r.start hw3 p hp
      exact ⟨by omega, this.2⟩

theorem rtiles_pairwise :
    ∀ (acc : List (Nat × SentenceRange)) (w : Nat), RTiles acc w →
      acc.Pairwise (fun a b => b.2.stop < a.2.start) := by
  intro acc
  induction acc with
  | nil => intro w _; exact List.Pairwise.nil
  | cons hd tl ih =>
    intro w hw
    obtain ⟨gi, r⟩ := hd
    obtain ⟨hw1, hw2, hw3⟩ := hw
    exact List.Pairwise.cons
      (fun b hb => (rtiles_stop_lt tl r.start hw3 b hb).1) (ih r.start hw3)

theorem rtiles_repairStep (acc : List (Nat × SentenceRange)) (w : Nat)
    (p : Nat × SentenceRange) (h : RTiles acc w) :
    RTiles (repairStep (acc, w) p).1 (repairStep (acc, w) p).2 := by
  obtain ⟨gi, r⟩ := p
  simp only [repairStep]
  by_cases h1 : r.stop < w
  · simp only [if_pos h1]; exact h
  · simp only [if_neg h1]
    by_cases h2 : r.stop < max r.start w
    · simp only [if_pos h2]; exact h
    · simp only [if_neg h2]
      by_cases h3 : w < max r.start w
      · simp only [if_pos h3]
        cases acc with
        | nil =>
          have hw0 : w = 0 := h
          refine ⟨rfl, ?_, ?_⟩
          · show (0 : Nat) ≤ r.stop
            omega
          · show RTiles [] 0
            rfl
        | cons hd tl =>
          obtain ⟨pgi, pr⟩ := hd
          obtain ⟨hwa, hwb, hwc⟩ := h
          refine ⟨rfl, ?_, ?_, ?_, ?_⟩
          · show max r.start w ≤ r.stop
            omega
          · show max r.start w = (max r.start w - 1) + 1
            omega
          · show pr.start ≤ max r.start w - 1
            omega
          · show RTiles tl pr.start
            exact hwc
      · simp only [if_neg h3]
        have hsw : max r.start w = w := by omega
        refine ⟨rfl, ?_, ?_⟩
        · show max r.start w ≤ r.stop
          omega
        · show RTiles acc (max r.start w)
          rw [hsw]
          exact h

theorem rtiles_fold :
    ∀ (l : List (Nat × SentenceRange)) (acc : List (Nat × SentenceRange)) (w : Nat),
      RTiles acc w →
      RTiles (l.foldl repairStep (acc, w)).1 (l.foldl repairStep (acc, w)).2 := by
  intro l
  induction l with
  | nil => intro acc w h; exact h
  | cons p ps ih =>
    intro acc w h
    have h' := rtiles_repairStep acc w p h
    have := ih (repairStep (acc, w) p).1 (repairStep (acc, w) p).2 h'
    simpa using this

theorem repairStep_ne_nil (acc : List (Nat × SentenceRange)) (w : Nat)
    (p : Nat × SentenceRange) (h : acc ≠ []) : (repairStep (acc, w) p).1 ≠ [] := by
  obtain ⟨gi, r⟩ := p
  simp only [repairStep]
  by_cases h1 : r.stop < w
  · simp only [if_pos h1]; exact h
  · simp only [if_neg h1]
    by_cases h2 : r.stop < max r.start w
    · simp only [if_pos h2]; exact h
    · simp only [if_neg h2]
      by_cases h3 : w < max r.start w
      · simp only [if_pos h3]
        cases acc with
        | nil => exact absurd rfl h
        | cons hd tl => obtain ⟨pgi, pr⟩ := hd; simp
      · simp only [if_neg h3]; simp

theorem fold_nil_inv :
    ∀ (l : List (Nat × SentenceRange)) (acc : List (Nat × SentenceRange)) (w : Nat),
      RTiles acc w → (l.foldl repairStep (acc, w)).1 = [] →
      acc = [] ∧ ∀ p ∈ l, p.2.stop < p.2.start := by
  intro l
  induction l with
  | nil =>
    intro acc w _ hnil
    exact ⟨hnil, by simp⟩
  | cons p ps ih =>
    intro acc w hrt hnil
    have hstep := rtiles_repairStep acc w p hrt
    have hfold : (ps.foldl repairStep (repairStep (acc, w) p)).1 = [] := by
      simpa using hnil
    have hfold' : (ps.foldl repairStep
        ((repairStep (acc, w) p).1, (repairStep (acc, w) p).2)).1 = [] := by
      simpa using hfold
    obtain ⟨hstep_nil, hps⟩ := ih _ _ hstep hfold'
    have hacc : acc = [] := by
      by_contra hne
      exact repairStep_ne_nil acc w p hne hstep_nil
    subst hacc
    have hw0 : w = 0 := hrt
    subst hw0
    refine ⟨rfl, ?_⟩
    intro q hq
    rw [List.mem_cons] at hq
    rcases hq with hq | hq
    · rw [hq]
      obtain ⟨gi, r⟩ := p
      show r.stop < r.start
      by_contra hle
      simp only [repairStep] at hstep_nil
      have h1 : ¬ r.stop < 0 := by omega
      have hm : max r.start 0 = r.start := by omega
      rw [if_neg h1] at hstep_nil
      simp only [hm] at hstep_nil
      have h2 : ¬ r.stop < r.start := by omega
      rw [if_neg h2] at hstep_nil
      by_cases h3 : 0 < r.start
      · rw [if_pos h3] at hstep_nil
        simp at hstep_nil
      · rw [if_neg h3] at hstep_nil
        simp at hstep_nil
    · exact hps q hq

theorem repairStep_fst_lt (n : Nat) (acc : List (Nat × SentenceRange)) (w : Nat)
    (p : Nat × SentenceRange) (hacc : ∀ q ∈ acc, q.1 < n) (hp : p.1 < n) :
    ∀ q ∈ (repairStep (acc, w) p).1, q.1 < n := by
  obtain ⟨gi, r⟩ := p
  simp only [repairStep]
  by_cases h1 : r.stop < w
  · simp only [if_pos h1]; exact hacc
  · simp only [if_neg h1]
    by_cases h2 : r.stop < max r.start w
    · simp only [if_pos h2]; exact hacc
    · simp only [if_neg h2]
      by_cases h3 : w < max r.start w
      · simp only [if_pos h3]
        cases acc with
        | nil =>
          intro q hq
          simp at hq
          subst hq
          exact hp
        | cons hd tl =>
          obtain ⟨pgi, pr⟩ := hd
          intro q hq
          rw [List.mem_cons, List.mem_cons] at hq
          rcases hq with hq | hq | hq
          · subst hq; exact hp
          · subst hq; exact hacc (pgi, pr) (by simp)
          · exact hacc q (List.mem_cons_of_mem _ hq)
      · simp only [if_neg h3]
        intro q hq
        rw [List.mem_cons] at hq
        rcases hq with hq | hq
        · subst hq; exact hp
        · exact hacc q hq

theorem fold_fst_lt (n : Nat) :
    ∀ (l : List (Nat × SentenceRange)) (acc : List (Nat × SentenceRange)) (w : Nat),
      (∀ q ∈ acc, q.1 < n) → (∀ q ∈ l, q.1 < n) →
      ∀ q ∈ (l.foldl repairStep (acc, w)).1, q.1 < n := by
  intro l
  induction l with
  | nil => intro acc w hacc _; exact hacc
  | cons p ps ih =>
    intro acc w hacc hl
    have hp : p.1 < n := hl p (by simp)
    have hstep := repairStep_fst_lt n acc w p hacc hp
    have := ih (repairStep (acc, w) p).1 (repairStep (acc, w) p).2 hstep
      (fun q hq => hl q (List.mem_cons_of_mem _ hq))
    simpa using this

theorem flattenFrom_fst_bound :
    ∀ (gs : List SentenceGroup) (gi : Nat) (p : Nat × SentenceRange),
      p ∈ flattenFrom gi gs → gi ≤ p.1 ∧ p.1 < gi + gs.length := by
  intro gs
  induction gs with
  | nil => intro gi p hp; simp [flattenFrom] at hp
  | cons g tl ih =>
    intro gi p hp
    simp only [flattenFrom, List.mem_append, List.mem_map] at hp
    rcases hp with ⟨r, _, hr⟩ | hp
    · subst hr; simp
    · have := ih (gi + 1) p hp
      refine ⟨by omega, ?_⟩
      simp only [List.length_cons]
      omega

theorem flattenFrom_mem (g : SentenceGroup) (r : SentenceRange) :
    ∀ (gs : List SentenceGroup) (gi : Nat), g ∈ gs → r ∈ g.ranges →
      ∃ k, (k, r) ∈ flattenFrom gi gs := by
  intro gs
  induction gs with
  | nil => intro gi hg _; simp at hg
  | cons g' tl ih =>
    intro gi hg hr
    rw [List.mem_cons] at hg
    rcases hg with rfl | hg
    · refine ⟨gi, ?_⟩
      simp only [flattenFrom, List.mem_append, List.mem_map]
      exact Or.inl ⟨r, hr, rfl⟩
    · obtain ⟨k, hk⟩ := ih (gi + 1) hg hr
      refine ⟨k, ?_⟩
      simp only [flattenFrom, List.mem_append]
      exact Or.inr hk

theorem countP_or_disjoint {α : Type} (a b : α → Bool) :
    ∀ (l : List α), (∀ x ∈ l, ¬(a x = true ∧ b x = true)) →
      l.countP (fun x => a x || b x) = l.countP a + l.countP b := by
  intro l
  induction l with
  | nil => intro _; simp
  | cons x xs ih =>
    intro h
    rw [List.countP_cons, List.countP_cons, List.countP_cons,
      ih (fun y hy => h y (List.mem_cons_of_mem _ hy))]
    have := h x (by simp)
    cases ha : a x <;> cases hb : b x <;> simp [ha, hb] at this ⊢ <;> omega

theorem buildGroups_sum (i : Nat) (acc : List (Nat × SentenceRange)) :
    ∀ (gs : List SentenceGroup) (gi : Nat),
      ((buildGroupsFrom gi acc gs).map
        (fun g => g.ranges.countP (fun r => coversB r i))).sum
      = acc.countP (fun p =>
          (decide (gi ≤ p.1) && decide (p.1 < gi + gs.length)) && coversB p.2 i) := by
  intro gs
  induction gs with
  | nil =>
    intro gi
    simp only [buildGroupsFrom, List.map_nil, List.sum_nil, List.length_nil]
    rw [Eq.comm, List.countP_eq_zero]
    intro p _
    simp only [Bool.and_eq_true, decide_eq_true_eq]
    omega
  | cons g tl ih =>
    intro gi
    have hgrp : ((acc.filter (fun p => p.1 == gi)).map (·.2)).countP
        (fun r => coversB r i)
        = acc.countP (fun p => decide (p.1 = gi) && coversB p.2 i) := by
      rw [List.countP_map, List.countP_filter]
      apply List.countP_congr
      intro p _
      simp only [Function.comp_apply, beq_iff_eq, Bool.and_comm]
      cases hc : coversB p.2 i <;> simp [hc]
    have hsplit : acc.countP (fun p =>
          (decide (gi ≤ p.1) && decide (p.1 < gi + (g :: tl).length)) && coversB p.2 i)
        = acc.countP (fun p => decide (p.1 = gi) && coversB p.2 i)
          + acc.countP (fun p =>
            (decide (gi + 1 ≤ p.1) && decide (p.1 < gi + 1 + tl.length)) && coversB p.2 i) := by
      rw [← countP_or_disjoint]
      · apply List.countP_congr
        intro p _
        simp only [List.length_cons, Bool.and_eq_true, Bool.or_eq_true, decide_eq_true_eq]
        cases hc : coversB p.2 i <;> simp [hc] <;> omega
      · intro p _
        simp only [Bool.and_eq_true, decide_eq_true_eq]
        omega
    simp only [buildGroupsFrom]
    by_cases hemp : ((acc.filter (fun p => p.1 == gi)).map (·.2)).isEmpty
    · rw [if_pos hemp]
      have h0 : acc.countP (fun p => decide (p.1 = gi) && coversB p.2 i) = 0 := by
        rw [← hgrp]
        rw [List.isEmpty_iff] at hemp
        rw [hemp]
        rfl
      rw [ih (gi + 1), hsplit, h0]
      omega
    · rw [if_neg hemp]
      simp only [List.map_cons, List.sum_cons]
      rw [hgrp, ih (gi + 1), hsplit]

theorem buildGroups_shape (acc : List (Nat × SentenceRange)) :
    ∀ (gs : List SentenceGroup) (gi : Nat), ∀ g' ∈ buildGroupsFrom gi acc gs,
      (∃ k, g'.ranges = (acc.filter (fun p => p.1 == k)).map (·.2)) ∧ g'.ranges ≠ [] := by
  intro gs
  induction gs with
  | nil => intro gi g' hg'; simp [buildGroupsFrom] at hg'
  | cons g tl ih =>
    intro gi g' hg'
    simp only [buildGroupsFrom] at hg'
    by_cases hemp : ((acc.filter (fun p => p.1 == gi)).map (·.2)).isEmpty
    · rw [if_pos hemp] at hg'
      exact ih (gi + 1) g' hg'
    · rw [if_neg hemp] at hg'
      rw [List.mem_cons] at hg'
      rcases hg' with hg' | hg'
      · rw [hg']
        refine ⟨⟨gi, rfl⟩, ?_⟩
        intro hnil
        rw [← List.isEmpty_iff] at hnil
        exact hemp hnil
      · exact ih (gi + 1) g' hg'

theorem buildGroups_sublist (acc : List (Nat × SentenceRange)) :
    ∀ (gs : List SentenceGroup) (gi : Nat),
      ((buildGroupsFrom gi acc gs).map (·.label)).Sublist (gs.map (·.label)) := by
  intro gs
  induction gs with
  | nil => intro gi; simp [buildGroupsFrom]
  | cons g tl ih =>
    intro gi
    simp only [buildGroupsFrom]
    by_cases hemp : ((acc.filter (fun p => p.1 == gi)).map (·.2)).isEmpty
    · rw [if_pos hemp]
      exact List.Sublist.cons _ (ih (gi + 1))
    · rw [if_neg hemp]
      simp only [List.map_cons]
      exact List.Sublist.cons₂ _ (ih (gi + 1))

theorem buildGroups_props (groups : List SentenceGroup)
    (acc : List (Nat × SentenceRange)) (w sc : Nat)
    (hrt : RTiles acc w) (hsc : sc ≤ w) (hb : ∀ q ∈ acc, q.1 < groups.length) :
    (∀ i, i < sc →
      ((buildGroupsFrom 0 acc.reverse groups).map
        (fun g => g.ranges.countP (fun r => coversB r i))).sum = 1) ∧
    (∀ g' ∈ buildGroupsFrom 0 acc.reverse groups,
      g'.ranges.Pairwise (fun a b => a.stop < b.start)) ∧
    (∀ g' ∈ buildGroupsFrom 0 acc.reverse groups,
      ∀ r ∈ g'.ranges, r.start ≤ r.stop) ∧
    (((buildGroupsFrom 0 acc.reverse groups).map (·.label)).Sublist
      (groups.map (·.label))) ∧
    (∀ g' ∈ buildGroupsFrom 0 acc.reverse groups, g'.ranges ≠ []) := by
  refine ⟨?_, ?_, ?_, ?_, ?_⟩
  · intro i hi
    rw [buildGroups_sum i acc.reverse groups 0]
    rw [List.countP_reverse]
    have hcong : acc.countP (fun p =>
        (decide (0 ≤ p.1) && decide (p.1 < 0 + groups.length)) && coversB p.2 i)
        = acc.countP (fun p => coversB p.2 i) := by
      apply List.countP_congr
      intro p hp
      have := hb p hp
      simp only [Bool.and_eq_true, decide_eq_true_eq]
      constructor
      · rintro ⟨_, h2⟩; exact h2
      · intro h2; exact ⟨⟨Nat.zero_le _, by omega⟩, h2⟩
    rw [hcong, rtiles_count i acc w hrt, if_pos (by omega)]
  · intro g' hg'
    obtain ⟨⟨k, hk⟩, _⟩ := buildGroups_shape acc.reverse groups 0 g' hg'
    rw [hk]
    have hpw : acc.reverse.Pairwise (fun a b => a.2.stop < b.2.start) := by
      rw [List.pairwise_reverse]
      exact rtiles_pairwise acc w hrt
    exact (hpw.filter _).map _ (fun a b h => h)
  · intro g' hg' r hr
    obtain ⟨⟨k, hk⟩, _⟩ := buildGroups_shape acc.reverse groups 0 g' hg'
    rw [hk] at hr
    simp only [List.mem_map, List.mem_filter] at hr
    obtain ⟨p, ⟨hpmem, _⟩, hpr⟩ := hr
    rw [List.mem_reverse] at hpmem
    have := rtiles_stop_lt acc w hrt p hpmem
    rw [← hpr]
    exact this.2
  · exact buildGroups_sublist acc.reverse groups 0
  · intro g' hg'
    exact (buildGroups_shape acc.reverse groups 0 g' hg').2

/-- Claim C1 — `RepairingGapHandler.handle`, corrected.  For `sentence_count > 0`
and any group list containing at least one well-formed range (`start ≤ end`),
`handle` succeeds and returns groups in which every sentence index in
`[0, sentence_count-1]` lies in exactly one range of exactly one group, the
ranges within each group are sorted and non-overlapping (and well-formed),
the input group order is preserved (the output labels form a sublist of the
input labels), and empty groups are dropped.  Gaps are filled by the source's
rules (pull the first accepted range back to 0, extend the previous range
over a mid gap, extend the last range to `sentence_count-1`), which the
embedding `repairStep`/`repairingFinish` realizes line by line. -/
theorem C1_repairing_handle_exact_cover (groups : List SentenceGroup)
    (sentence_count : Nat) (hsc : 0 < sentence_count)
    (hval : ∃ g ∈ groups, ∃ r ∈ g.ranges, r.start ≤ r.stop) :
    ∃ res, repairingHandle groups sentence_count = .ok res ∧
      (∀ i, i < sentence_count →
        ((res.map (fun g => g.ranges.countP (fun r => coversB r i))).sum = 1)) ∧
      (∀ g' ∈ res, g'.ranges.Pairwise (fun a b => a.stop < b.start)) ∧
      (∀ g' ∈ res, ∀ r ∈ g'.ranges, r.start ≤ r.stop) ∧
      ((res.map (·.label)).Sublist (groups.map (·.label))) ∧
      (∀ g' ∈ res, g'.ranges ≠ []) := by
  obtain ⟨g0, hg0, r0, hr0, hv0⟩ := hval
  have hscne : ¬ (sentence_count = 0) := by omega
  have hgne : groups ≠ [] := by
    intro h
    rw [h] at hg0
    simp at hg0
  have hgne' : ¬ (groups.isEmpty = true) := by
    rw [List.isEmpty_iff]
    exact hgne
  have hrt0 : RTiles ([] : List (Nat × SentenceRange)) 0 := rfl
  have hrt : RTiles ((isortLt rangeLtKey (flatten groups)).foldl repairStep ([], 0)).1
      ((isortLt rangeLtKey (flatten groups)).foldl repairStep ([], 0)).2 :=
    rtiles_fold _ [] 0 hrt0
  have hb : ∀ q ∈ ((isortLt rangeLtKey (flatten groups)).foldl repairStep ([], 0)).1,
      q.1 < groups.length := by
    apply fold_fst_lt groups.length _ [] 0
    · intro q hq
      simp at hq
    · intro q hq
      have := flattenFrom_fst_bound groups 0 q ((mem_isortLt _ _ _).mp hq)
      omega
  have hnil : ((isortLt rangeLtKey (flatten groups)).foldl repairStep ([], 0)).1 ≠ [] := by
    intro h
    obtain ⟨_, hall⟩ := fold_nil_inv _ [] 0 hrt0 h
    obtain ⟨k, hk⟩ := flattenFrom_mem g0 r0 groups 0 hg0 hr0
    have := hall (k, r0) ((mem_isortLt _ _ _).mpr hk)
    simp only at this
    omega
  have hrew : repairingHandle groups sentence_count
      = repairingFinish groups (sentence_count - 1)
        ((isortLt rangeLtKey (flatten groups)).foldl repairStep ([], 0)) := by
    simp only [repairingHandle, if_neg hscne, if_neg hgne']
  rcases hacc : ((isortLt rangeLtKey (flatten groups)).foldl repairStep ([], 0)).1
      with _ | ⟨⟨pgi, pr⟩, rest⟩
  · exact absurd hacc hnil
  · rw [hacc] at hrt hb
    obtain ⟨hwa, hwb, hwc⟩ := hrt
    by_cases hle : ((isortLt rangeLtKey (flatten groups)).foldl repairStep ([], 0)).2
        ≤ sentence_count - 1
    · have hrtF : RTiles ((pgi, ⟨pr.start, sentence_count - 1⟩) :: rest)
          sentence_count := by
        refine ⟨?_, ?_, ?_⟩
        · show sentence_count = (sentence_count - 1) + 1
          omega
        · show pr.start ≤ sentence_count - 1
          omega
        · show RTiles rest pr.start
          exact hwc
      have hbF : ∀ q ∈ (pgi, (⟨pr.start, sentence_count - 1⟩ : SentenceRange)) :: rest,
          q.1 < groups.length := by
        intro q hq
        rw [List.mem_cons] at hq
        rcases hq with hq | hq
        · rw [hq]
          exact hb (pgi, pr) (by simp)
        · exact hb q (List.mem_cons_of_mem _ hq)
      obtain ⟨hcov, hpw, hwf, hsub, hnn⟩ :=
        buildGroups_props groups ((pgi, ⟨pr.start, sentence_count - 1⟩) :: rest)
          sentence_count sentence_count hrtF (le_refl _) hbF
      refine ⟨_, ?_, hcov, hpw, hwf, hsub, hnn⟩
      rw [hrew]
      simp only [repairingFinish, if_pos hle, hacc]
    · have hwge : sentence_count ≤
          ((isortLt rangeLtKey (flatten groups)).foldl repairStep ([], 0)).2 := by
        omega
      have hrtF : RTiles ((pgi, pr) :: rest)
          ((isortLt rangeLtKey (flatten groups)).foldl repairStep ([], 0)).2 :=
        ⟨hwa, hwb, hwc⟩
      obtain ⟨hcov, hpw, hwf, hsub, hnn⟩ :=
        buildGroups_props groups ((pgi, pr) :: rest) _ sentence_count hrtF hwge hb
      refine ⟨_, ?_, hcov, hpw, hwf, hsub, hnn⟩
      rw [hrew]
      simp only [repairingFinish, if_neg hle, hacc]

/-- Witness for C1 at a concrete input: one group labelled `T` with the single
range `(0, 0)` and `sentence_count = 1`. -/
theorem C1_witness :
    ∃ res, repairingHandle [⟨["T"], [⟨0, 0⟩]⟩] 1 = .ok res ∧
      (∀ i, i < 1 →
        ((res.map (fun g => g.ranges.countP (fun r => coversB r i))).sum = 1)) ∧
      (∀ g' ∈ res, g'.ranges.Pairwise (fun a b => a.stop < b.start)) ∧
      (∀ g' ∈ res, ∀ r ∈ g'.ranges, r.start ≤ r.stop) ∧
      ((res.map (·.label)).Sublist ([⟨["T"], [⟨0, 0⟩]⟩].map
        (SentenceGroup.label))) ∧
      (∀ g' ∈ res, g'.ranges ≠ []) :=
  C1_repairing_handle_exact_cover [⟨["T"], [⟨0, 0⟩]⟩] 1 (by decide)
    ⟨⟨["T"], [⟨0, 0⟩]⟩, by simp, ⟨0, 0⟩, by simp, by decide⟩

/-- Counterexample for C1 as frozen: a non-empty group list (one group whose
`ranges` tuple is empty) on which `RepairingGapHandler.handle` raises
`GapError` instead of returning covering groups. -/
theorem C1_counterexample :
    repairingHandle [⟨["A"], []⟩] 1
      = .error "Unable to cover end gap - no groups found" := by rfl

theorem strictGo_eq :
    ∀ (l : List (Nat × SentenceRange)) (w : Nat),
      strictGo l w = if tilesFrom w (trimGo l w) = true
        then .ok (trimGo l w, trimEnd l w) else .error "Gap detected" := by
  intro l
  induction l with
  | nil =>
    intro w
    simp [strictGo, trimGo, trimEnd, tilesFrom]
  | cons p rest ih =>
    intro w
    obtain ⟨gi, r⟩ := p
    simp only [strictGo, trimGo, trimEnd]
    by_cases h1 : r.stop < w
    · rw [if_pos h1, if_pos h1, if_pos h1, ih w]
    · rw [if_neg h1, if_neg h1, if_neg h1]
      by_cases h2 : r.stop < max r.start w
      · rw [if_pos h2, if_pos h2, if_pos h2, ih w]
      · rw [if_neg h2, if_neg h2, if_neg h2]
        by_cases h3 : max r.start w ≠ w
        · rw [if_pos h3]
          have hfalse : tilesFrom w
              ((gi, (⟨max r.start w, r.stop⟩ : SentenceRange)) :: trimGo rest (r.stop + 1))
              = false := by
            simp only [tilesFrom, Bool.and_eq_false_iff]
            left
            simpa using h3
          rw [hfalse]
          simp
        · rw [if_neg h3]
          push_neg at h3
          have htiles : tilesFrom w
              ((gi, (⟨max r.start w, r.stop⟩ : SentenceRange)) :: trimGo rest (r.stop + 1))
              = tilesFrom (r.stop + 1) (trimGo rest (r.stop + 1)) := by
            simp only [tilesFrom]
            have : ((⟨max r.start w, r.stop⟩ : SentenceRange).start == w) = true := by
              simpa using h3
            rw [this, Bool.true_and]
          rw [ih (r.stop + 1), htiles]
          by_cases h4 : tilesFrom (r.stop + 1) (trimGo rest (r.stop + 1)) = true
          · rw [if_pos h4, if_pos h4]
          · rw [if_neg h4, if_neg h4]

theorem trimGo_ge :
    ∀ (l : List (Nat × SentenceRange)) (w : Nat), ∀ p ∈ trimGo l w,
      w ≤ p.2.start ∧ p.2.start ≤ p.2.stop := by
  intro l
  induction l with
  | nil => intro w p hp; simp [trimGo] at hp
  | cons q rest ih =>
    intro w p hp
    obtain ⟨gi, r⟩ := q
    simp only [trimGo] at hp
    by_cases h1 : r.stop < w
    · rw [if_pos h1] at hp
      exact ih w p hp
    · rw [if_neg h1] at hp
      by_cases h2 : r.stop < max r.start w
      · rw [if_pos h2] at hp
        exact ih w p hp
      · rw [if_neg h2] at hp
        rw [List.mem_cons] at hp
        rcases hp with hp | hp
        · rw [hp]
          constructor
          · show w ≤ max r.start w
            omega
          · show max r.start w ≤ r.stop
            omega
        · have := ih (r.stop + 1) p hp
          refine ⟨by omega, this.2⟩

theorem trimGo_pairwise :
    ∀ (l : List (Nat × SentenceRange)) (w : Nat),
      (trimGo l w).Pairwise (fun a b => a.2.stop < b.2.start) := by
  intro l
  induction l with
  | nil => intro w; simp [trimGo]
  | cons q rest ih =>
    intro w
    obtain ⟨gi, r⟩ := q
    simp only [trimGo]
    by_cases h1 : r.stop < w
    · rw [if_pos h1]; exact ih w
    · rw [if_neg h1]
      by_cases h2 : r.stop < max r.start w
      · rw [if_pos h2]; exact ih w
      · rw [if_neg h2]
        refine List.Pairwise.cons ?_ (ih (r.stop + 1))
        intro b hb
        have := trimGo_ge rest (r.stop + 1) b hb
        show r.stop < b.2.start
        omega

theorem trimGo_fst_lt (n : Nat) :
    ∀ (l : List (Nat × SentenceRange)) (w : Nat), (∀ q ∈ l, q.1 < n) →
      ∀ p ∈ trimGo l w, p.1 < n := by
  intro l
  induction l with
  | nil => intro w _ p hp; simp [trimGo] at hp
  | cons q rest ih =>
    intro w hl p hp
    obtain ⟨gi, r⟩ := q
    simp only [trimGo] at hp
    have hrest : ∀ q ∈ rest, q.1 < n := fun q hq => hl q (List.mem_cons_of_mem _ hq)
    by_cases h1 : r.stop < w
    · rw [if_pos h1] at hp
      exact ih w hrest p hp
    · rw [if_neg h1] at hp
      by_cases h2 : r.stop < max r.start w
      · rw [if_pos h2] at hp
        exact ih w hrest p hp
      · rw [if_neg h2] at hp
        rw [List.mem_cons] at hp
        rcases hp with hp | hp
        · rw [hp]
          exact hl (gi, r) (by simp)
        · exact ih (r.stop + 1) hrest p hp

theorem tilesEnd_ge : ∀ (l : List (Nat × SentenceRange)) (w : Nat),
    tilesFrom w l = true → (∀ p ∈ l, p.2.start ≤ p.2.stop) → w ≤ tilesEnd l w := by
  intro l
  induction l with
  | nil => intro w _ _; simp [tilesEnd]
  | cons q rest ih =>
    intro w htl hwf
    obtain ⟨gi, r⟩ := q
    simp only [tilesFrom, Bool.and_eq_true, beq_iff_eq] at htl
    obtain ⟨hstart, htl'⟩ := htl
    have hstart' : r.start = w := hstart
    simp only [tilesEnd]
    have hr : r.start ≤ r.stop := hwf (gi, r) (by simp)
    have : r.stop + 1 ≤ tilesEnd rest (r.stop + 1) :=
      ih (r.stop + 1) htl' (fun p hp => hwf p (List.mem_cons_of_mem _ hp))
    omega

theorem tiles_start_ge :
    ∀ (l : List (Nat × SentenceRange)) (w : Nat), tilesFrom w l = true →
      (∀ p ∈ l, p.2.start ≤ p.2.stop) → ∀ p ∈ l, w ≤ p.2.start := by
  intro l
  induction l with
  | nil => intro w _ _ p hp; simp at hp
  | cons q rest ih =>
    intro w htl hwf p hp
    obtain ⟨gi, r⟩ := q
    simp only [tilesFrom, Bool.and_eq_true, beq_iff_eq] at htl
    obtain ⟨hstart, htl'⟩ := htl
    have hstart' : r.start = w := hstart
    rw [List.mem_cons] at hp
    rcases hp with hp | hp
    · rw [hp]
      show w ≤ r.start
      omega
    · have hwfr : ∀ q ∈ rest, q.2.start ≤ q.2.stop :=
        fun q hq => hwf q (List.mem_cons_of_mem _ hq)
      have := ih (r.stop + 1) htl' hwfr p hp
      have hr : r.start ≤ r.stop := hwf (gi, r) (by simp)
      omega

theorem tilesFrom_count :
    ∀ (l : List (Nat × SentenceRange)) (w : Nat),
      tilesFrom w l = true →
      (∀ p ∈ l, w ≤ p.2.start ∧ p.2.start ≤ p.2.stop) →
      ∀ i, l.countP (fun p => coversB p.2 i)
        = if w ≤ i ∧ i < tilesEnd l w then 1 else 0 := by
  intro l
  induction l with
  | nil =>
    intro w _ _ i
    simp only [tilesEnd, List.countP_nil]
    split_ifs with h
    · omega
    · rfl
  | cons q rest ih =>
    intro w htl hwf i
    obtain ⟨gi, r⟩ := q
    simp only [tilesFrom, Bool.and_eq_true, beq_iff_eq] at htl
    obtain ⟨hstart, htl'⟩ := htl
    have hstart' : r.start = w := hstart
    have hwfr : ∀ p ∈ rest, w ≤ p.2.start ∧ p.2.start ≤ p.2.stop :=
      fun p hp => hwf p (List.mem_cons_of_mem _ hp)
    have hwf' : ∀ p ∈ rest, r.stop + 1 ≤ p.2.start ∧ p.2.start ≤ p.2.stop := by
      intro p hp
      refine ⟨tiles_start_ge rest (r.stop + 1) htl'
        (fun q hq => (hwfr q hq).2) p hp, (hwfr p hp).2⟩
    have hrwf := hwf (gi, r) (by simp)
    have hge : r.stop + 1 ≤ tilesEnd rest (r.stop + 1) :=
      tilesEnd_ge rest _ htl' (fun q hq => (hwfr q hq).2)
    rw [List.countP_cons, ih (r.stop + 1) htl' hwf' i]
    show (if r.stop + 1 ≤ i ∧ i < tilesEnd rest (r.stop + 1) then 1 else 0)
        + (if coversB (gi, r).2 i = true then 1 else 0)
      = if w ≤ i ∧ i < tilesEnd ((gi, r) :: rest) w then 1 else 0
    have htE : tilesEnd ((gi, r) :: rest) w = tilesEnd rest (r.stop + 1) := rfl
    rw [htE]
    simp only [coversB, decide_eq_true_eq]
    have hrwf' : w ≤ r.start ∧ r.start ≤ r.stop := hrwf
    show (if r.stop + 1 ≤ i ∧ i < tilesEnd rest (r.stop + 1) then 1 else 0)
        + (if r.start ≤ i ∧ i ≤ r.stop then 1 else 0)
      = if w ≤ i ∧ i < tilesEnd rest (r.stop + 1) then 1 else 0
    split_ifs <;> omega

theorem trimEnd_eq_tilesEnd :
    ∀ (l : List (Nat × SentenceRange)) (w : Nat),
      tilesEnd (trimGo l w) w = trimEnd l w := by
  intro l
  induction l with
  | nil => intro w; rfl
  | cons q rest ih =>
    intro w
    obtain ⟨gi, r⟩ := q
    simp only [trimGo, trimEnd]
    by_cases h1 : r.stop < w
    · rw [if_pos h1, if_pos h1, ih w]
    · rw [if_neg h1, if_neg h1]
      by_cases h2 : r.stop < max r.start w
      · rw [if_pos h2, if_pos h2, ih w]
      · rw [if_neg h2, if_neg h2]
        show tilesEnd (trimGo rest (r.stop + 1)) (r.stop + 1) = trimEnd rest (r.stop + 1)
        exact ih (r.stop + 1)

/-- Claim C5 — `StrictGapHandler.handle`, corrected.  For `sentence_count > 0`:
`handle` succeeds iff the overlap-trimmed ranges tile a contiguous block
`[0, E]` with `E ≥ sentence_count - 1` — the handler also raises GapError for
a gap lying entirely at or beyond `sentence_count` (see `C5_counterexample`),
which is what the frozen claim's "some index in `[0, sentence_count-1]`
uncovered" misses.  On success it returns the trimmed groups (input order
preserved, empty groups dropped, ranges per group sorted and non-overlapping)
and every index below `sentence_count` lies in exactly one range of exactly
one returned group. -/
theorem C5_strict_handle_characterization (groups : List SentenceGroup)
    (sentence_count : Nat) (hsc : 0 < sentence_count) :
    ((strictHandle groups sentence_count).isOk = true ↔
      (tilesFrom 0 (trimGo (isortLt rangeLtKey (flatten groups)) 0) = true ∧
        sentence_count ≤ trimEnd (isortLt rangeLtKey (flatten groups)) 0)) ∧
    (∀ res, strictHandle groups sentence_count = .ok res →
      res = buildGroupsFrom 0 (trimGo (isortLt rangeLtKey (flatten groups)) 0) groups ∧
      (∀ i, i < sentence_count →
        ((res.map (fun g => g.ranges.countP (fun r => coversB r i))).sum = 1)) ∧
      (∀ g' ∈ res, g'.ranges.Pairwise (fun a b => a.stop < b.start)) ∧
      ((res.map (·.label)).Sublist (groups.map (·.label))) ∧
      (∀ g' ∈ res, g'.ranges ≠ [])) := by
  have hscne : ¬ (sentence_count = 0) := by omega
  by_cases hg : groups.isEmpty = true
  · have hgnil : groups = [] := List.isEmpty_iff.mp hg
    subst hgnil
    have h1 : strictHandle [] sentence_count = .error "No groups provided" := by
      simp [strictHandle, hscne]
    constructor
    · rw [h1]
      constructor
      · intro h
        simp [Except.toBool, Except.isOk] at h
      · rintro ⟨_, h2⟩
        have h0 : trimEnd (isortLt rangeLtKey (flatten ([] : List SentenceGroup))) 0
            = 0 := rfl
        omega
    · intro res hres
      rw [h1] at hres
      simp at hres
  · by_cases htl : tilesFrom 0 (trimGo (isortLt rangeLtKey (flatten groups)) 0) = true
    · have hgo : strictGo (isortLt rangeLtKey (flatten groups)) 0
          = .ok (trimGo (isortLt rangeLtKey (flatten groups)) 0,
              trimEnd (isortLt rangeLtKey (flatten groups)) 0) := by
        rw [strictGo_eq, if_pos htl]
      by_cases hend : trimEnd (isortLt rangeLtKey (flatten groups)) 0
          ≤ sentence_count - 1
      · have hH : strictHandle groups sentence_count = .error "Incomplete coverage" := by
          simp only [strictHandle, if_neg hscne, if_neg hg, hgo, if_pos hend]
        rw [hH]
        constructor
        · constructor
          · intro h
            simp [Except.toBool, Except.isOk] at h
          · rintro ⟨_, h2⟩
            omega
        · intro res hres
          simp at hres
      · have hH : strictHandle groups sentence_count
            = .ok (buildGroupsFrom 0
                (trimGo (isortLt rangeLtKey (flatten groups)) 0) groups) := by
          simp only [strictHandle, if_neg hscne, if_neg hg, hgo, if_neg hend]
        constructor
        · rw [hH]
          constructor
          · intro _
            exact ⟨htl, by omega⟩
          · intro _
            rfl
        · intro res hres
          rw [hH] at hres
          have hres' : res
              = buildGroupsFrom 0 (trimGo (isortLt rangeLtKey (flatten groups)) 0)
                  groups := (Except.ok.inj hres).symm
          have hwf : ∀ p ∈ trimGo (isortLt rangeLtKey (flatten groups)) 0,
              (0 : Nat) ≤ p.2.start ∧ p.2.start ≤ p.2.stop :=
            trimGo_ge (isortLt rangeLtKey (flatten groups)) 0
          have hbound : ∀ p ∈ trimGo (isortLt rangeLtKey (flatten groups)) 0,
              p.1 < groups.length := by
            apply trimGo_fst_lt
            intro q hq
            have := flattenFrom_fst_bound groups 0 q ((mem_isortLt _ _ _).mp hq)
            omega
          refine ⟨hres', ?_, ?_, ?_, ?_⟩
          · intro i hi
            rw [hres', buildGroups_sum i _ groups 0]
            have hcong : (trimGo (isortLt rangeLtKey (flatten groups)) 0).countP
                (fun p => (decide (0 ≤ p.1) && decide (p.1 < 0 + groups.length))
                  && coversB p.2 i)
                = (trimGo (isortLt rangeLtKey (flatten groups)) 0).countP
                  (fun p => coversB p.2 i) := by
              apply List.countP_congr
              intro p hp
              have := hbound p hp
              simp only [Bool.and_eq_true, decide_eq_true_eq]
              constructor
              · rintro ⟨_, h2⟩
                exact h2
              · intro h2
                exact ⟨⟨Nat.zero_le _, by omega⟩, h2⟩
            rw [hcong, tilesFrom_count _ 0 htl hwf i,
              trimEnd_eq_tilesEnd (isortLt rangeLtKey (flatten groups)) 0]
            rw [if_pos (by omega)]
          · intro g' hg'
            rw [hres'] at hg'
            obtain ⟨⟨k, hk⟩, _⟩ := buildGroups_shape _ groups 0 g' hg'
            rw [hk]
            exact ((trimGo_pairwise _ 0).filter _).map _ (fun a b h => h)
          · rw [hres']
            exact buildGroups_sublist _ groups 0
          · intro g' hg'
            rw [hres'] at hg'
            exact (buildGroups_shape _ groups 0 g' hg').2
    · have hgo : strictGo (isortLt rangeLtKey (flatten groups)) 0
          = .error "Gap detected" := by
        rw [strictGo_eq, if_neg htl]
      have hH : strictHandle groups sentence_count = .error "Gap detected" := by
        simp only [strictHandle, if_neg hscne, if_neg hg, hgo]
      rw [hH]
      constructor
      · constructor
        · intro h
          simp [Except.toBool, Except.isOk] at h
        · rintro ⟨h1, _⟩
          exact absurd h1 htl
      · intro res hres
        simp at hres

/-- Witness for C5 at a concrete input: one group covering `(0, 1)` exactly,
with `sentence_count = 2`; the handler succeeds. -/
theorem C5_witness :
    (strictHandle [⟨["T"], [⟨0, 1⟩]⟩] 2).isOk = true :=
  (C5_strict_handle_characterization [⟨["T"], [⟨0, 1⟩]⟩] 2 (by decide)).1.mpr
    (by decide)

/-- Counterexample for C5 as frozen: with ranges `(0,4)` and `(7,9)` and
`sentence_count = 3`, every sentence index in `[0, 2]` is covered after
trimming (by the trimmed range `(0,4)`), yet the handler raises `GapError`
(the gap `5-6` lies entirely beyond `sentence_count`), so "raises iff some
index in `[0, sentence_count-1]` is uncovered" is false. -/
theorem C5_counterexample :
    strictHandle [⟨["A"], [⟨0, 4⟩, ⟨7, 9⟩]⟩] 3 = .error "Gap detected" ∧
    (∀ i, i < 3 →
      (trimGo (isortLt rangeLtKey (flatten [⟨["A"], [⟨0, 4⟩, ⟨7, 9⟩]⟩])) 0).countP
        (fun p => coversB p.2 i) = 1) := by
  constructor
  · rfl
  · decide

/-- Embeds `OffsetSegment` from `src/lib/txt_splitt/types.py`. -/
structure OffsetSegment where
  clean_offset : Nat
  original_offset : Nat
  length : Nat
deriving DecidableEq, Repr

/-- Embeds `OffsetMapping` from `src/lib/txt_splitt/types.py`. -/
structure OffsetMapping where
  segments : List OffsetSegment
  original_length : Nat
  clean_length : Nat
deriving DecidableEq, Repr

/-- Embeds `bisect.bisect_right(a, x)` for the sorted offset lists that
`OffsetMapping.to_original` passes to it: on a list sorted in non-decreasing
order the insertion point returned by the binary search is exactly the length
of the longest prefix of elements `≤ x`. -/
def bisectRight (a : List Nat) (x : Nat) : Nat :=
  (a.takeWhile (fun v => decide (v ≤ x))).length

/-- Embeds the segment selection of `OffsetMapping.to_original`
(`types.py` lines 94-96): `idx = bisect_right(offsets, clean_pos) - 1`,
`segments[idx]`.  Python's `-1` index (when `bisect_right` returns 0) selects
the last segment, hence the `getLast?` branch. -/
def segLookup (segs : List OffsetSegment) (clean_pos : Nat) : Option OffsetSegment :=
  let offsets := segs.map (·.clean_offset)
  let k := bisectRight offsets clean_pos
  if k = 0 then segs.getLast? else segs.get? (k - 1)

/-- Embeds `OffsetMapping.to_original` (`types.py` lines 75-97).  The two
`ValueError` branches (negative position — impossible for `Nat` — and a
position beyond `clean_length`, or no segments) are embedded as `none`. -/
def toOriginal (m : OffsetMapping) (clean_pos : Nat) : Option Nat :=
  if m.clean_length < clean_pos then none
  else if clean_pos = m.clean_length then some m.original_length
  else if m.segments.isEmpty then none
  else
    match segLookup m.segments clean_pos with
    | none => none
    | some seg => some (seg.original_offset + (clean_pos - seg.clean_offset))

/-- Embeds one iteration of the match loop of `TagStripCleaner.clean`
(`html_cleaners.py` lines 30-43).  The state is
`(segments, clean_offset, last_end)`; the span is `(match.start, match.end)`
of the next regex tag match, the regex engine being abstracted by the list of
its non-overlapping, left-to-right match spans. -/
def cleanStep (st : List OffsetSegment × Nat × Nat) (span : Nat × Nat) :
    List OffsetSegment × Nat × Nat :=
  if st.2.2 < span.1 then
    (st.1 ++ [⟨st.2.1, st.2.2, span.1 - st.2.2⟩], st.2.1 + (span.1 - st.2.2), span.2)
  else (st.1, st.2.1, span.2)

/-- Embeds the `OffsetMapping` produced by `TagStripCleaner.clean`
(`html_cleaners.py` lines 21-64), as a function of the tag-match spans and of
the original text length (`clean` reads nothing else of the text to build the
mapping; the clean text itself is the concatenation of the segments). -/
def tagStripMapping (spans : List (Nat × Nat)) (textLen : Nat) : OffsetMapping :=
  if textLen = 0 then ⟨[], 0, 0⟩
  else
    let st := spans.foldl cleanStep ([], 0, 0)
    if st.2.2 < textLen then
      ⟨st.1 ++ [⟨st.2.1, st.2.2, textLen - st.2.2⟩], textLen,
        st.2.1 + (textLen - st.2.2)⟩
    else ⟨st.1, textLen, st.2.1⟩

/-- Well-formedness of a regex match stream starting after position `lo`:
matches come in left-to-right non-overlapping order and lie within the text.
`re.finditer` guarantees exactly this. -/
def spansOK : Nat → Nat → List (Nat × Nat) → Bool
  | _, _, [] => true
  | lo, len, (s, e) :: rest =>
    decide (lo ≤ s) && decide (s ≤ e) && decide (e ≤ len) && spansOK e len rest

/-- Chain predicate for segment lists: starting at clean offset `co` with all
original offsets at least `oe`, the segments tile the clean axis contiguously
with positive lengths and non-decreasing original spans, ending at clean
offset `co'` with original high-water mark `oe'`. -/
def SegChain : Nat → Nat → List OffsetSegment → Nat → Nat → Prop
  | co, oe, [], co', oe' => co' = co ∧ oe' = oe
  | co, oe, seg :: rest, co', oe' =>
    seg.clean_offset = co ∧ oe ≤ seg.original_offset ∧ 1 ≤ seg.length ∧
    SegChain (co + seg.length) (seg.original_offset + seg.length) rest co' oe'

theorem segChain_le :
    ∀ (l : List OffsetSegment) (co oe co' oe' : Nat), SegChain co oe l co' oe' →
      co ≤ co' ∧ oe ≤ oe' := by
  intro l
  induction l with
  | nil =>
    intro co oe co' oe' h
    obtain ⟨h1, h2⟩ := h
    omega
  | cons seg rest ih =>
    intro co oe co' oe' h
    obtain ⟨h1, h2, h3, h4⟩ := h
    have := ih _ _ _ _ h4
    omega

theorem segChain_snoc :
    ∀ (l : List OffsetSegment) (co oe co' oe' o n : Nat),
      SegChain co oe l co' oe' → oe' ≤ o → 1 ≤ n →
      SegChain co oe (l ++ [⟨co', o, n⟩]) (co' + n) (o + n) := by
  intro l
  induction l with
  | nil =>
    intro co oe co' oe' o n h ho hn
    obtain ⟨h1, h2⟩ := h
    subst h1
    refine ⟨rfl, ?_, ?_, rfl, rfl⟩
    · show oe ≤ o
      omega
    · show 1 ≤ n
      exact hn
  | cons seg rest ih =>
    intro co oe co' oe' o n h ho hn
    obtain ⟨h1, h2, h3, h4⟩ := h
    exact ⟨h1, h2, h3, ih _ _ _ _ _ _ h4 ho hn⟩

theorem cleanFold_chain :
    ∀ (spans : List (Nat × Nat)) (textLen : Nat) (segs : List OffsetSegment)
      (co le oe : Nat),
      SegChain 0 0 segs co oe → oe ≤ le → le ≤ textLen →
      spansOK le textLen spans = true →
      ∃ oe2, SegChain 0 0 (spans.foldl cleanStep (segs, co, le)).1
          (spans.foldl cleanStep (segs, co, le)).2.1 oe2 ∧
        oe2 ≤ (spans.foldl cleanStep (segs, co, le)).2.2 ∧
        (spans.foldl cleanStep (segs, co, le)).2.2 ≤ textLen := by
  intro spans
  induction spans with
  | nil =>
    intro textLen segs co le oe hch hoe hle _
    exact ⟨oe, hch, hoe, hle⟩
  | cons sp rest ih =>
    intro textLen segs co le oe hch hoe hle hok
    obtain ⟨s, e⟩ := sp
    simp only [spansOK, Bool.and_eq_true, decide_eq_true_eq] at hok
    obtain ⟨⟨⟨hls, hse⟩, het⟩, hok'⟩ := hok
    simp only [List.foldl_cons]
    by_cases hcut : le < s
    · have hstep : cleanStep (segs, co, le) (s, e)
          = (segs ++ [⟨co, le, s - le⟩], co + (s - le), e) := by
        simp [cleanStep, hcut]
      rw [hstep]
      have hch' : SegChain 0 0 (segs ++ [⟨co, le, s - le⟩]) (co + (s - le))
          (le + (s - le)) := segChain_snoc segs 0 0 co oe le (s - le) hch hoe (by omega)
      have : le + (s - le) = s := by omega
      rw [this] at hch'
      exact ih textLen _ _ e s hch' (by omega) (by omega) hok'
    · have hstep : cleanStep (segs, co, le) (s, e) = (segs, co, e) := by
        simp [cleanStep, hcut]
      rw [hstep]
      exact ih textLen segs co e oe hch (by omega) (by omega) hok'

/-- Well-formedness of a produced mapping: its segments chain from clean
offset 0 up to `clean_length`, with original offsets bounded by
`original_length`. -/
def MappingWF (m : OffsetMapping) : Prop :=
  ∃ oe, SegChain 0 0 m.segments m.clean_length oe ∧ oe ≤ m.original_length

theorem tagStrip_wf (spans : List (Nat × Nat)) (textLen : Nat)
    (h : spansOK 0 textLen spans = true) : MappingWF (tagStripMapping spans textLen) := by
  by_cases h0 : textLen = 0
  · subst h0
    refine ⟨0, ?_, le_refl 0⟩
    simp only [tagStripMapping, if_pos rfl]
    exact ⟨rfl, rfl⟩
  · have hch0 : SegChain 0 0 ([] : List OffsetSegment) 0 0 := ⟨rfl, rfl⟩
    obtain ⟨oe2, hch, hoe2, hle2⟩ :=
      cleanFold_chain spans textLen [] 0 0 0 hch0 (le_refl 0) (by omega) h
    simp only [tagStripMapping, if_neg h0]
    by_cases hfin : (spans.foldl cleanStep ([], 0, 0)).2.2 < textLen
    · rw [if_pos hfin]
      refine ⟨(spans.foldl cleanStep ([], 0, 0)).2.2
          + (textLen - (spans.foldl cleanStep ([], 0, 0)).2.2), ?_, ?_⟩
      · exact segChain_snoc _ 0 0 _ oe2 _ _ hch hoe2 (by omega)
      · show (spans.foldl cleanStep ([], 0, 0)).2.2
            + (textLen - (spans.foldl cleanStep ([], 0, 0)).2.2) ≤ textLen
        omega
    · rw [if_neg hfin]
      refine ⟨oe2, hch, ?_⟩
      show oe2 ≤ textLen
      omega

theorem bisectRight_cons_le (c : Nat) (rest : List Nat) (x : Nat) (h : c ≤ x) :
    bisectRight (c :: rest) x = 1 + bisectRight rest x := by
  simp only [bisectRight, List.takeWhile_cons, decide_eq_true h]
  simp [Nat.add_comm]

theorem segLookup_cons_here (seg : OffsetSegment) (rest : List OffsetSegment)
    (x : Nat) (hx : seg.clean_offset ≤ x)
    (hrest : ∀ s2 ∈ rest.head?, x < s2.clean_offset) :
    segLookup (seg :: rest) x = some seg := by
  have hk : bisectRight ((seg :: rest).map (·.clean_offset)) x = 1 := by
    simp only [List.map_cons]
    rw [bisectRight_cons_le _ _ _ hx]
    have : bisectRight (rest.map (·.clean_offset)) x = 0 := by
      cases rest with
      | nil => rfl
      | cons s2 r2 =>
        have hlt : x < s2.clean_offset := hrest s2 (by simp)
        simp only [List.map_cons, bisectRight, List.takeWhile_cons]
        have : (decide (s2.clean_offset ≤ x)) = false := by
          simp only [decide_eq_false_iff_not]
          omega
        rw [this]
        simp
    omega
  simp only [segLookup, hk]
  simp

theorem segLookup_cons_there (seg : OffsetSegment) (rest : List OffsetSegment)
    (x : Nat) (hx : seg.clean_offset ≤ x)
    (hrest : ∃ s2 ∈ rest.head?, s2.clean_offset ≤ x) :
    segLookup (seg :: rest) x = segLookup rest x := by
  obtain ⟨s2, hs2, hs2le⟩ := hrest
  cases rest with
  | nil => simp at hs2
  | cons s2' r2 =>
    have hs2' : s2' = s2 := by
      simp only [List.head?] at hs2
      exact Option.some.inj hs2
    subst hs2'
    have hk2 : bisectRight ((s2' :: r2).map (·.clean_offset)) x
        = 1 + bisectRight (r2.map (·.clean_offset)) x := by
      simp only [List.map_cons]
      exact bisectRight_cons_le _ _ _ hs2le
    have hk : bisectRight ((seg :: s2' :: r2).map (·.clean_offset)) x
        = 1 + (1 + bisectRight (r2.map (·.clean_offset)) x) := by
      simp only [List.map_cons]
      rw [bisectRight_cons_le _ _ _ hx]
      simp only [List.map_cons] at hk2
      omega
    simp only [segLookup, hk, hk2]
    have h1 : ¬ (1 + (1 + bisectRight (r2.map (·.clean_offset)) x) = 0) := by omega
    have h2 : ¬ (1 + bisectRight (r2.map (·.clean_offset)) x = 0) := by omega
    rw [if_neg h1, if_neg h2]
    have e1 : 1 + (1 + bisectRight (r2.map (·.clean_offset)) x) - 1
        = (1 + bisectRight (r2.map (·.clean_offset)) x - 1) + 1 := by omega
    rw [e1]
    rfl

theorem segLookup_spec :
    ∀ (l : List OffsetSegment) (co oe co' oe' x : Nat),
      SegChain co oe l co' oe' → co ≤ x → x < co' →
      ∃ seg, segLookup l x = some seg ∧
        seg.clean_offset ≤ x ∧ x < seg.clean_offset + seg.length ∧
        oe ≤ seg.original_offset ∧
        seg.original_offset + (x - seg.clean_offset) < oe' := by
  intro l
  induction l with
  | nil =>
    intro co oe co' oe' x h hx hx'
    obtain ⟨h1, _⟩ := h
    omega
  | cons seg rest ih =>
    intro co oe co' oe' x h hx hx'
    obtain ⟨h1, h2, h3, h4⟩ := h
    by_cases hin : x < co + seg.length
    · have hlook : segLookup (seg :: rest) x = some seg := by
        apply segLookup_cons_here seg rest x (by omega)
        intro s2 hs2
        cases rest with
        | nil => simp at hs2
        | cons s2' r2 =>
          obtain ⟨hc2, _, _, _⟩ := h4
          simp only [List.head?] at hs2
          have : s2' = s2 := Option.some.inj hs2
          subst this
          omega
      have hoeend := (segChain_le rest _ _ _ _ h4).2
      exact ⟨seg, hlook, by omega, by omega, h2, by omega⟩
    · cases rest with
      | nil =>
        obtain ⟨hc', _⟩ := h4
        omega
      | cons s2 r2 =>
        obtain ⟨hc2, hh2, hh3, hh4⟩ := h4
        have hlook : segLookup (seg :: s2 :: r2) x = segLookup (s2 :: r2) x := by
          apply segLookup_cons_there seg _ x (by omega)
          exact ⟨s2, by simp, by omega⟩
        obtain ⟨seg', hfind, hp1, hp2, hp3, hp4⟩ :=
          ih _ _ _ _ x ⟨hc2, hh2, hh3, hh4⟩ (by omega) hx'
        exact ⟨seg', by rw [hlook]; exact hfind, hp1, hp2, by omega, hp4⟩

theorem segVal_mono :
    ∀ (l : List OffsetSegment) (co oe co' oe' x y : Nat),
      SegChain co oe l co' oe' → co ≤ x → x ≤ y → y < co' →
      ∀ sx, segLookup l x = some sx → ∀ sy, segLookup l y = some sy →
        sx.original_offset + (x - sx.clean_offset)
          ≤ sy.original_offset + (y - sy.clean_offset) := by
  intro l
  induction l with
  | nil =>
    intro co oe co' oe' x y h hx hxy hy
    obtain ⟨h1, _⟩ := h
    omega
  | cons seg rest ih =>
    intro co oe co' oe' x y h hx hxy hy sx hsx sy hsy
    obtain ⟨h1, h2, h3, h4⟩ := h
    have hheadlt : ∀ z, z < co + seg.length → co ≤ z →
        segLookup (seg :: rest) z = some seg := by
      intro z hz hz'
      apply segLookup_cons_here seg rest z (by omega)
      intro s2 hs2
      cases rest with
      | nil => simp at hs2
      | cons s2' r2 =>
        obtain ⟨hc2, _, _, _⟩ := h4
        simp only [List.head?] at hs2
        have : s2' = s2 := Option.some.inj hs2
        subst this
        omega
    by_cases hyin : y < co + seg.length
    · have hx1 : segLookup (seg :: rest) x = some seg := hheadlt x (by omega) hx
      have hy1 : segLookup (seg :: rest) y = some seg := hheadlt y hyin (by omega)
      rw [hsx] at hx1
      rw [hsy] at hy1
      have ex : sx = seg := Option.some.inj hx1
      have ey : sy = seg := Option.some.inj hy1
      subst ex
      subst ey
      omega
    · cases rest with
      | nil =>
        obtain ⟨hc', _⟩ := h4
        omega
      | cons s2 r2 =>
        obtain ⟨hc2, hh2, hh3, hh4⟩ := h4
        have hythere : segLookup (seg :: s2 :: r2) y = segLookup (s2 :: r2) y := by
          apply segLookup_cons_there seg _ y (by omega)
          exact ⟨s2, by simp, by omega⟩
        by_cases hxin : x < co + seg.length
        · have hx1 : segLookup (seg :: s2 :: r2) x = some seg := hheadlt x hxin hx
          rw [hsx] at hx1
          have ex : sx = seg := Option.some.inj hx1
          subst ex
          rw [hythere] at hsy
          obtain ⟨seg', hfind, hp1, hp2, hp3, hp4⟩ :=
            segLookup_spec (s2 :: r2) _ _ _ _ y ⟨hc2, hh2, hh3, hh4⟩ (by omega) hy
          rw [hsy] at hfind
          have ey : sy = seg' := Option.some.inj hfind
          subst ey
          omega
        · have hxthere : segLookup (seg :: s2 :: r2) x = segLookup (s2 :: r2) x := by
            apply segLookup_cons_there seg _ x (by omega)
            exact ⟨s2, by simp, by omega⟩
          rw [hxthere] at hsx
          rw [hythere] at hsy
          exact ih _ _ _ _ x y ⟨hc2, hh2, hh3, hh4⟩ (by omega) hxy hy sx hsx sy hsy

theorem toOriginal_clean_length (m : OffsetMapping) :
    toOriginal m m.clean_length = some m.original_length := by
  simp [toOriginal]

theorem toOriginal_mono_of_wf (m : OffsetMapping) (h : MappingWF m) (p q : Nat)
    (hpq : p ≤ q) (hq : q ≤ m.clean_length) :
    ∃ a b, toOriginal m p = some a ∧ toOriginal m q = some b ∧ a ≤ b := by
  obtain ⟨oe, hch, hoe⟩ := h
  have hval : ∀ z, z < m.clean_length →
      ∃ seg, segLookup m.segments z = some seg ∧
        toOriginal m z = some (seg.original_offset + (z - seg.clean_offset)) ∧
        seg.original_offset + (z - seg.clean_offset) < oe := by
    intro z hz
    obtain ⟨seg, hfind, hp1, hp2, hp3, hp4⟩ :=
      segLookup_spec m.segments 0 0 m.clean_length oe z hch (Nat.zero_le _) hz
    refine ⟨seg, hfind, ?_, hp4⟩
    have hne : m.segments.isEmpty = false := by
      cases hsegs : m.segments with
      | nil =>
        rw [hsegs] at hch
        obtain ⟨hc0, _⟩ := hch
        omega
      | cons a l => rfl
    simp only [toOriginal, if_neg (by omega : ¬ m.clean_length < z),
      if_neg (by omega : ¬ z = m.clean_length), hne, Bool.false_eq_true,
      if_neg (Bool.false_ne_true), hfind]
    simp
  by_cases hqI : q = m.clean_length
  · subst hqI
    by_cases hpI : p = m.clean_length
    · subst hpI
      exact ⟨m.original_length, m.original_length, toOriginal_clean_length m,
        toOriginal_clean_length m, le_refl _⟩
    · obtain ⟨seg, _, hto, hlt⟩ := hval p (by omega)
      exact ⟨_, m.original_length, hto, toOriginal_clean_length m, by omega⟩
  · obtain ⟨segq, hfq, htoq, _⟩ := hval q (by omega)
    obtain ⟨segp, hfp, htop, _⟩ := hval p (by omega)
    refine ⟨_, _, htop, htoq, ?_⟩
    exact segVal_mono m.segments 0 0 m.clean_length oe p q hch (Nat.zero_le _)
      hpq (by omega) segp hfp segq hfq

/-- Claim C6 — `OffsetMapping.to_original` over `TagStripCleaner.clean`,
corrected.  For any mapping the cleaner produces (the regex engine abstracted
by the well-formed list of its match spans), `to_original` is monotone
non-decreasing on `[0, clean_length]` and `to_original(clean_length) =
original_length`, but `to_original(0)` equals the original offset of the
first preserved segment, which is **not** 0 whenever the original text starts
with a tag (see `C6_counterexample`). -/
theorem C6_to_original_monotone (spans : List (Nat × Nat)) (textLen p q : Nat)
    (hok : spansOK 0 textLen spans = true) (hpq : p ≤ q)
    (hq : q ≤ (tagStripMapping spans textLen).clean_length) :
    (∃ a b, toOriginal (tagStripMapping spans textLen) p = some a ∧
      toOriginal (tagStripMapping spans textLen) q = some b ∧ a ≤ b) ∧
    toOriginal (tagStripMapping spans textLen)
        (tagStripMapping spans textLen).clean_length
      = some (tagStripMapping spans textLen).original_length :=
  ⟨toOriginal_mono_of_wf _ (tagStrip_wf spans textLen hok) p q hpq hq,
    toOriginal_clean_length _⟩

/-- Witness for C6 at a concrete input: the spans of `"<p>Hello"` (one tag
match at `(0, 3)`, text length 8), with positions `p = 1 ≤ q = 4`. -/
theorem C6_witness :
    (∃ a b, toOriginal (tagStripMapping [(0, 3)] 8) 1 = some a ∧
      toOriginal (tagStripMapping [(0, 3)] 8) 4 = some b ∧ a ≤ b) ∧
    toOriginal (tagStripMapping [(0, 3)] 8)
        (tagStripMapping [(0, 3)] 8).clean_length
      = some (tagStripMapping [(0, 3)] 8).original_length :=
  C6_to_original_monotone [(0, 3)] 8 1 4 (by decide) (by decide) (by decide)

/-- Counterexample for C6 as frozen: for the input `"<p>Hello"` (regex tag
match span `(0, 3)`, length 8) the cleaner's mapping sends clean position 0
to original position 3, not 0 — `to_original(0) = 0` fails whenever the
document starts with a tag. -/
theorem C6_counterexample :
    toOriginal (tagStripMapping [(0, 3)] 8) 0 = some 3 ∧ (3 : Nat) ≠ 0 := by
  constructor
  · rfl
  · decide

/-- Is `pat` a prefix of `l`? (character-wise). -/
def isPre : List Char → List Char → Bool
  | [], _ => true
  | _ :: _, [] => false
  | p :: ps, c :: cs => (p == c) && isPre ps cs

/-- Index of the first occurrence of `pat` in the list, if any. -/
def findSub (pat : List Char) : List Char → Option Nat
  | [] => if isPre pat [] then some 0 else none
  | c :: cs =>
    if isPre pat (c :: cs) then some 0
    else
      match findSub pat cs with
      | some i => some (i + 1)
      | none => none

/-- Embeds `re.sub(r"<think>.*?</think>", "", content, flags=re.DOTALL)` from
`LLamaCPP.call` (`src/lib/txt_splitt/llms/llamacpp.py` line 48): scan left to
right; at each `<think>` opener, non-greedily match up to the first following
`</think>` and delete the whole block; an opener with no closer anywhere
after it does not match and the rest is kept verbatim.  The fuel argument is
only there to make the recursion structural: every step consumes at least one
character, so fuel equal to the list length (as `stripThink` passes) never
runs out — the `0` case is reached only with an empty list. -/
def stripThinkLoop : Nat → List Char → List Char
  | 0, cs => cs
  | fuel + 1, cs =>
    match cs with
    | [] => []
    | c :: rest =>
      if isPre "<think>".data (c :: rest) then
        match findSub "</think>".data (List.drop 7 (c :: rest)) with
        | none => c :: rest
        | some j => stripThinkLoop fuel (List.drop (j + 8) (List.drop 7 (c :: rest)))
      else c :: stripThinkLoop fuel rest

/-- The `<think>` scrub applied to a string. -/
def stripThink (s : String) : String :=
  String.mk (stripThinkLoop s.data.length s.data)

/-- The error text `f"{res.status} - {res.reason} - {resp_body_text}"` built
by `LLamaCPP.call` (`llamacpp.py` line 38). -/
def errMsgFmt (status : Nat) (reason body : String) : String :=
  toString status ++ " - " ++ reason ++ " - " ++ body

/-- Result of one `LLamaCPP.call`: either the distinct "request too large"
`ValueError` raised for status 400, or a string returned to the caller. -/
inductive CallOutcome where
  | tooLarge (msg : String)
  | content (s : String)
deriving DecidableEq, Repr

/-- Embeds `LLamaCPP.call` (`src/lib/txt_splitt/llms/llamacpp.py` lines
18-49) as a function of the HTTP response.  The JSON mining
`resp["choices"][0]["message"]["content"]` on the 200 path is abstracted by
the `extract` oracle over the response body; the status dispatch, the error
text, and the `<think>` stripping are embedded literally.  Note the source
**returns** the error text for non-200, non-400 statuses instead of raising. -/
def llamaCall (status : Nat) (reason body : String) (extract : String → String) :
    CallOutcome :=
  if status ≠ 200 then
    if status = 400 then
      .tooLarge ("Request too large (400): " ++ errMsgFmt status reason body)
    else .content (errMsgFmt status reason body)
  else .content (stripThink (extract body))

/-- Embeds Python's `str.strip()` (whitespace from both ends). -/
def pyStrip (s : String) : String :=
  String.mk (((s.data.dropWhile (fun c => c.isWhitespace)).reverse.dropWhile
    (fun c => c.isWhitespace)).reverse)

/-- Embeds `TopicRangeLLM._query_single` (`src/lib/txt_splitt/llm.py` lines
42-55) downstream of the client call: a raised `ValueError` (the 400 path) is
caught by `except Exception` and wrapped into `LLMError("LLM call failed:
...")`; an empty or whitespace-only returned string raises `LLMError("Empty
LLM response")`; otherwise the stripped response is returned. -/
def querySingle (outcome : CallOutcome) : Except String String :=
  match outcome with
  | .tooLarge m => .error ("LLM call failed: " ++ m)
  | .content s => if pyStrip s = "" then .error "Empty LLM response" else .ok (pyStrip s)

/-- Claim C7 — LLM client error handling, corrected.  A 400 response raises
the distinct "request too large" error; a 200 response returns the extracted
content with any `<think>…</think>` blocks stripped; an empty (or
whitespace-only) returned string is an error in the query layer.  But every
**other** non-200 response does not raise: `LLamaCPP.call` returns the error
text `"status - reason - body"` as if it were content (see
`C7_counterexample`), so no `LLMError` carrying status and body is raised for
those responses. -/
theorem C7_llm_client_errors (status : Nat) (reason body : String)
    (extract : String → String) :
    (status = 400 → llamaCall status reason body extract
      = .tooLarge ("Request too large (400): " ++ errMsgFmt status reason body)) ∧
    (status ≠ 200 → status ≠ 400 → llamaCall status reason body extract
      = .content (errMsgFmt status reason body)) ∧
    (status = 200 → llamaCall status reason body extract
      = .content (stripThink (extract body))) ∧
    (∀ s, pyStrip s = "" → querySingle (.content s) = .error "Empty LLM response") ∧
    (∀ s, pyStrip s ≠ "" → querySingle (.content s) = .ok (pyStrip s)) := by
  refine ⟨?_, ?_, ?_, ?_, ?_⟩
  · intro h
    subst h
    simp [llamaCall]
  · intro h1 h2
    simp [llamaCall, h1, h2]
  · intro h
    subst h
    simp [llamaCall]
  · intro s hs
    simp [querySingle, hs]
  · intro s hs
    simp [querySingle, hs]

/-- Witness for C7 at concrete inputs: a 400 response raises the distinct
error, and `<think>` stripping applies on a 200 response. -/
theorem C7_witness :
    llamaCall 400 "Bad Request" "b" id
      = .tooLarge ("Request too large (400): " ++ errMsgFmt 400 "Bad Request" "b") ∧
    llamaCall 200 "OK" "<think>x</think>ok" id = .content "ok" :=
  ⟨(C7_llm_client_errors 400 "Bad Request" "b" id).1 rfl,
    ((C7_llm_client_errors 200 "OK" "<think>x</think>ok" id).2.2.1 rfl).trans rfl⟩

/-- Counterexample for C7 as frozen: a 500 response does not yield an
`LLMError` — `LLamaCPP.call` returns the error text as content, and the
query layer then treats it as a successful non-empty response. -/
theorem C7_counterexample :
    llamaCall 500 "Internal Server Error" "boom" id
      = .content "500 - Internal Server Error - boom" ∧
    querySingle (llamaCall 500 "Internal Server Error" "boom" id)
      = .ok "500 - Internal Server Error - boom" := by
  constructor
  · rfl
  · rfl

/-- The apostrophe character (code point 39). -/
def apostropheChar : Char := Char.ofNat 39

/-- Is the character in the regex class of `re.findall` on word runs used by
`build_compressed_trie` (`src/lib/tasks/prefix_tree.py` line 21): an ASCII
letter or an apostrophe? -/
def isWordChar (c : Char) : Bool :=
  ('a' ≤ c && c ≤ 'z') || ('A' ≤ c && c ≤ 'Z') || c == apostropheChar

/-- Embeds `re.findall(r"[a-zA-Z']+", text)`: the maximal runs of word
characters, in order.  The fuel argument only makes the recursion structural:
every step consumes at least one character, so fuel equal to the list length
(as `findallWords` passes) never runs out. -/
def findallWordsLoop : Nat → List Char → List (List Char)
  | 0, _ => []
  | _, [] => []
  | fuel + 1, c :: rest =>
    if isWordChar c then
      ((c :: rest).takeWhile isWordChar)
        :: findallWordsLoop fuel ((c :: rest).dropWhile isWordChar)
    else findallWordsLoop fuel rest

/-- Maximal `[a-zA-Z']+` runs of a character list. -/
def findallWords (cs : List Char) : List (List Char) :=
  findallWordsLoop cs.length cs

/-- Embeds Python's `word.strip("'")`: drop apostrophes from both ends. -/
def stripQuote (cs : List Char) : List Char :=
  ((cs.dropWhile (fun c => c == apostropheChar)).reverse.dropWhile
    (fun c => c == apostropheChar)).reverse

/-- The words of one sentence as `build_compressed_trie` tokenizes it
(`prefix_tree.py` lines 21-24): lowercase, take `[a-zA-Z']+` runs, strip
apostrophes, drop words that become empty. -/
def sentenceWords (s : String) : List String :=
  ((findallWords (s.data.map Char.toLower)).map stripQuote).filterMap
    (fun w => if w.isEmpty then none else some (String.mk w))

/-- One `word_data[word]["count"] += 1; word_data[word]["sentences"].add(i)`
update on the insertion-ordered word table (Python dicts preserve insertion
order; the sentence set is kept as a duplicate-free list and sorted when the
word is written into the trie, as `sorted(data["sentences"])` does). -/
def addWord (wd : List (String × Nat × List Nat)) (w : String) (si : Nat) :
    List (String × Nat × List Nat) :=
  match wd with
  | [] => [(w, 1, [si])]
  | (k, c, ss) :: tl =>
    if k = w then (k, c + 1, if si ∈ ss then ss else ss ++ [si]) :: tl
    else (k, c, ss) :: addWord tl w si

/-- Embeds the word-counting loop of `build_compressed_trie`
(`prefix_tree.py` lines 19-26), sentence indices 1-based as in
`enumerate(sentences, 1)`. -/
def buildWordData : Nat → List (String × Nat × List Nat) → List String →
    List (String × Nat × List Nat)
  | _, wd, [] => wd
  | i, wd, s :: rest =>
    buildWordData (i + 1) ((sentenceWords s).foldl (fun acc w => addWord acc w i) wd) rest

mutual
/-- Embeds the nested `{children: ..., count: ..., sentences: ...}` dict of
`build_compressed_trie`; children are an insertion-ordered association list
(Python dict order), represented as a mutual inductive so that all
recursions over the trie stay structural. -/
inductive Trie where
  | node (children : TrieChildren) (count : Nat) (sentences : List Nat)
deriving Repr
inductive TrieChildren where
  | nil
  | cons (label : String) (t : Trie) (rest : TrieChildren)
deriving Repr
end

/-- Update the child under `key` in place (creating it at the end when
absent), as `node["children"][ch]` assignment does on a Python dict. -/
def updateChild (key : String) (f : Option Trie → Trie) : TrieChildren → TrieChildren
  | .nil => .cons key (f none) .nil
  | .cons k t tl =>
    if k = key then .cons k (f (some t)) tl else .cons k t (updateChild key f tl)

/-- Embeds the per-word insertion loop of `build_compressed_trie`
(`prefix_tree.py` lines 30-37): walk the word character by character creating
nodes, then write `count` and the sorted `sentences` at the final node. -/
def insertPath : List Char → Nat → List Nat → Trie → Trie
  | [], cnt, sl, .node cs _ _ => .node cs cnt sl
  | ch :: rest, cnt, sl, .node cs c s =>
    .node (updateChild (String.mk [ch])
      (fun t? => insertPath rest cnt sl
        (match t? with
         | none => .node .nil 0 []
         | some t => t)) cs) c s

/-- The uncompressed character trie over a word table. -/
def buildTrieRoot (wd : List (String × Nat × List Nat)) : Trie :=
  wd.foldl
    (fun root e =>
      insertPath e.1.data e.2.1 (isortLt (fun a b => decide (a < b)) e.2.2) root)
    (.node .nil 0 [])

/-- Embeds the chain-following `while` loop of `_compress_node`
(`prefix_tree.py` lines 56-59): while the current node has exactly one child
and `count == 0`, absorb that child, concatenating edge labels. -/
def chainMerge : String → Trie → String × Trie
  | label, .node (.cons l c .nil) 0 _ => chainMerge (label ++ l) c
  | label, t => (label, t)

mutual
/-- Embeds `_compress_node` (`prefix_tree.py` lines 44-61): recursively
compress all children first, then rebuild the children table merging each
single-child, zero-count chain.  (Merged labels never collide for the inputs
considered here, so the association list matches the Python dict rebuild.) -/
def compressNode : Trie → Trie
  | .node cs c s => .node (mergeChildren (compressChildren cs)) c s
def compressChildren : TrieChildren → TrieChildren
  | .nil => .nil
  | .cons l t rest => .cons l (compressNode t) (compressChildren rest)
def mergeChildren : TrieChildren → TrieChildren
  | .nil => .nil
  | .cons l t rest =>
    let p := chainMerge l t
    .cons p.1 p.2 (mergeChildren rest)
end

/-- Embeds `build_compressed_trie(sentences)` (`prefix_tree.py` lines
17-41): count words, build the character trie, compress, return the root's
children. -/
def build_compressed_trie (sentences : List String) : TrieChildren :=
  match compressNode (buildTrieRoot (buildWordData 1 [] sentences)) with
  | .node cs _ _ => cs

/-- The labels of a children table, in order. -/
def childLabels : TrieChildren → List String
  | .nil => []
  | .cons l _ rest => l :: childLabels rest

/-- Claim C8 — prefix-tree example E7, corrected.  On
`["the cat sat.", "the cats sit."]` the compressed trie's root has **three**
children: `"the"` — itself a terminal with `count = 2`, `sentences = [1, 2]`
(not a non-terminal as the claim says); `"cat"` — a terminal
(`count = 1`, `sentences = [1]`) carrying the child `"s"` (the word `cats`,
`count = 1`, `sentences = [2]`), rather than sibling terminals `cat`/`cats`;
and the non-terminal `"s"` with terminal children `"at"` (`count = 1`,
`sentences = [1]`) and `"it"` (`count = 1`, `sentences = [2]`). -/
theorem C8_prefix_tree_example :
    build_compressed_trie ["the cat sat.", "the cats sit."]
      = .cons "the" (.node .nil 2 [1, 2])
          (.cons "cat" (.node (.cons "s" (.node .nil 1 [2]) .nil) 1 [1])
            (.cons "s"
              (.node
                (.cons "at" (.node .nil 1 [1])
                  (.cons "it" (.node .nil 1 [2]) .nil)) 0 [])
              .nil)) := by
  rfl

/-- Counterexample for C8 as frozen: the root of the emitted tree has three
children labelled `the`, `cat`, `s` — not a single child labelled `the`. -/
theorem C8_counterexample :
    childLabels (build_compressed_trie ["the cat sat.", "the cats sit."])
        = ["the", "cat", "s"] ∧
      (["the", "cat", "s"] : List String) ≠ ["the"] := by
  constructor
  · rfl
  · decide

/-- Embeds `SubmissionsStorage.task_names`
(`src/lib/storage/submissions.py` line 11) — note this is the legacy
registry, not the queue's task set. -/
def storage_task_names : List String :=
  ["text_splitting", "topic_extraction", "summarization", "mindmap", "insides"]

/-- Embeds `SubmissionsStorage.task_dependencies` (`submissions.py` lines
12-18). -/
def storage_task_dependencies : List (String × List String) :=
  [("text_splitting", []),
   ("topic_extraction", ["text_splitting"]),
   ("summarization", ["text_splitting", "topic_extraction"]),
   ("mindmap", ["text_splitting", "topic_extraction"]),
   ("insides", ["text_splitting"])]

/-- One pass of the fixpoint loop of `expand_recalculation_tasks`
(`submissions.py` lines 219-228): walk `task_names`, adding any task one of
whose dependencies is already in the expanded set (additions are visible to
later tasks of the same pass, as in the Python `for` over the mutated set). -/
def expandPass (expanded : List String) : List String :=
  storage_task_names.foldl
    (fun exp name =>
      if name ∈ exp then exp
      else if (lookupD storage_task_dependencies name []).any
          (fun d => decide (d ∈ exp)) then exp ++ [name]
      else exp)
    expanded

/-- Embeds `SubmissionsStorage.expand_recalculation_tasks` (`submissions.py`
lines 208-230).  The Python `while changed` loop is iterated
`|task_names|` times: the expanded set only ever contains known task names,
so at most five passes can add anything and the fifth pass is already a
fixpoint. -/
def expand_recalculation_tasks (task_names : Option (List String)) : List String :=
  match task_names with
  | none => storage_task_names
  | some names =>
    if names.contains "all" then storage_task_names
    else
      let selected := names.filter (fun n => decide (n ∈ storage_task_names))
      let expanded := expandPass^[storage_task_names.length] selected
      storage_task_names.filter (fun n => decide (n ∈ expanded))

/-- The task-name/status pairs `SubmissionsStorage.create` initializes
(`submissions.py` lines 50-81): the five legacy names, all `pending`. -/
def createTaskStatuses : List (String × String) :=
  [("text_splitting", "pending"), ("topic_extraction", "pending"),
   ("summarization", "pending"), ("mindmap", "pending"), ("insides", "pending")]

/-- A MongoDB `$set` on `tasks.{name}.status`: update the entry in place if
the key exists, create it otherwise (dot paths create missing subdocuments). -/
def setTaskStatus (tasks : List (String × String)) (name status : String) :
    List (String × String) :=
  match tasks with
  | [] => [(name, status)]
  | (k, v) :: tl =>
    if k = name then (k, status) :: tl else (k, v) :: setTaskStatus tl name status

/-- Embeds `SubmissionsStorage.get_overall_status` (`submissions.py` lines
232-244), as a function of the per-task statuses (the Python local
`statuses` list is inlined). -/
def get_overall_status (tasks : List (String × String)) : String :=
  if (tasks.map (·.2)).any (fun s => s == "failed") then "failed"
  else if (tasks.map (·.2)).all (fun s => s == "completed") then "completed"
  else if (tasks.map (·.2)).any (fun s => s == "processing") then "processing"
  else "pending"

/-- Embeds the per-task record `{status, started_at, completed_at, error}`
of a submission document. -/
structure TaskState where
  status : String
  started_at : Option Nat
  completed_at : Option Nat
  error : Option String
deriving DecidableEq, Repr

/-- Python truthiness of the optional `error` argument (`if error:`):
`None` and the empty string are falsy. -/
def errTruthy : Option String → Bool
  | none => false
  | some s => !(s == "")

/-- Embeds `SubmissionsStorage.update_task_status` (`submissions.py` lines
110-136) restricted to one task's record: set the status, stamp
`started_at` on `processing` and `completed_at` on `completed`/`failed`, and
write `error` **only when a truthy error is passed** — a previously stored
error is never cleared. -/
def update_task_status (rec : TaskState) (status : String) (now : Nat)
    (error : Option String) : TaskState :=
  let r1 : TaskState := { rec with status := status }
  let r2 : TaskState :=
    if status == "processing" then { r1 with started_at := some now }
    else if status == "completed" || status == "failed" then
      { r1 with completed_at := some now }
    else r1
  if errTruthy error then { r2 with error := error } else r2

/-- Embeds `TASK_DEPENDENCIES` (`src/workers.py` lines 30-37). -/
def TASK_DEPENDENCIES : List (String × List String) :=
  [("split_topic_generation", []),
   ("subtopics_generation", ["split_topic_generation"]),
   ("summarization", ["split_topic_generation"]),
   ("mindmap", ["subtopics_generation"]),
   ("insides", ["split_topic_generation"]),
   ("prefix_tree", ["split_topic_generation"])]

/-- Embeds `TASK_PRIORITIES` (`workers.py` lines 40-47). -/
def TASK_PRIORITIES : List (String × Nat) :=
  [("split_topic_generation", 1), ("subtopics_generation", 2),
   ("summarization", 3), ("mindmap", 3), ("insides", 3), ("prefix_tree", 3)]

/-- The keys of `TASK_HANDLERS` (`workers.py` lines 50-57), in insertion
order; the handler functions themselves are irrelevant to the claims. -/
def taskHandlerKeys : List String :=
  ["split_topic_generation", "subtopics_generation", "summarization",
   "mindmap", "insides", "prefix_tree"]

/-- Embeds `Worker._dependencies_met` (`workers.py` lines 77-96), with the
submission store abstracted as a lookup from submission id to its per-task
status map (`submission["tasks"][dep]["status"]`). -/
def dependencies_met (getSubmission : String → Option (List (String × String)))
    (taskType submissionId : String) : Bool :=
  let deps := lookupD TASK_DEPENDENCIES taskType []
  if deps.isEmpty then true
  else
    match getSubmission submissionId with
    | none => false
    | some tasks => deps.all (fun dep => tasks.lookup dep == some "completed")

/-- Embeds a `task_queue` document. -/
structure QueueEntry where
  id : Nat
  submission_id : String
  task_type : String
  priority : Nat
  status : String
  created_at : Nat
  started_at : Option Nat
  completed_at : Option Nat
  worker_id : Option String
  retry_count : Nat
  error : Option String
deriving DecidableEq, Repr

/-- The `sort=[("priority", 1), ("created_at", 1)]` key order of
`find_one_and_update` in `Worker.claim_task`. -/
def entryKeyLt (a b : QueueEntry) : Bool :=
  decide (a.priority < b.priority
    ∨ (a.priority = b.priority ∧ a.created_at < b.created_at))

/-- The document `find_one_and_update` selects: the first match in sort
order (earlier document order wins ties). -/
def pickFirst : List QueueEntry → Option QueueEntry
  | [] => none
  | e :: tl =>
    match pickFirst tl with
    | none => some e
    | some b => if entryKeyLt b e then some b else some e

/-- The iteration order of `Worker.claim_task`
(`sorted(TASK_HANDLERS.keys(), key=lambda t: TASK_PRIORITIES.get(t, 99))`). -/
def claimOrder : List String :=
  isortLt (fun a b => decide (lookupD TASK_PRIORITIES a 99 < lookupD TASK_PRIORITIES b 99))
    taskHandlerKeys

/-- Embeds the loop body of `Worker.claim_task` (`workers.py` lines 98-140):
for each task type in priority order, atomically flip the best matching
pending entry to `processing`; keep it if `_dependencies_met`, otherwise
release it back to `pending` (clearing `started_at`/`worker_id`) and try the
next task type. -/
def claim_task_go (getSub : String → Option (List (String × String)))
    (wid : String) (now : Nat) :
    List QueueEntry → List String → Option (QueueEntry × List QueueEntry)
  | _, [] => none
  | queue, t :: ts =>
    match pickFirst (queue.filter (fun e => e.status == "pending" && e.task_type == t)) with
    | none => claim_task_go getSub wid now queue ts
    | some e =>
      let claimed : QueueEntry :=
        { e with status := "processing", started_at := some now, worker_id := some wid }
      let queue' := queue.map (fun q => if q.id == e.id then claimed else q)
      if dependencies_met getSub t e.submission_id then some (claimed, queue')
      else
        claim_task_go getSub wid now
          (queue'.map (fun q =>
            if q.id == e.id then
              { q with status := "pending", started_at := none, worker_id := none }
            else q)) ts

/-- Embeds `Worker.claim_task`. -/
def claim_task (queue : List QueueEntry)
    (getSub : String → Option (List (String × String)))
    (wid : String) (now : Nat) : Option (QueueEntry × List QueueEntry) :=
  claim_task_go getSub wid now queue claimOrder

/-- Embeds `_queue_all_tasks` (`src/handlers/submission_handler.py` lines
100-121): the inserted queue entries for a fresh submission.  Mongo's
generated `_id` is modelled by the insertion index. -/
def queue_all_tasks (submission_id : String) (now : Nat) : List QueueEntry :=
  ([("split_topic_generation", 1), ("subtopics_generation", 2),
    ("summarization", 3), ("mindmap", 3), ("prefix_tree", 3)].enum).map
    (fun ip =>
      { id := ip.1, submission_id := submission_id, task_type := ip.2.1,
        priority := ip.2.2, status := "pending", created_at := now,
        started_at := none, completed_at := none, worker_id := none,
        retry_count := 0, error := none })

/-- Embeds `ALLOWED_TASKS` of the task-queue admin endpoints
(`src/handlers/task_queue_handler.py` line 17). -/
def ALLOWED_TASKS : List String :=
  ["split_topic_generation", "subtopics_generation", "summarization",
   "mindmap", "prefix_tree"]

theorem pickFirst_mem :
    ∀ (l : List QueueEntry) (e : QueueEntry), pickFirst l = some e → e ∈ l := by
  intro l
  induction l with
  | nil => intro e h; simp [pickFirst] at h
  | cons hd tl ih =>
    intro e h
    simp only [pickFirst] at h
    cases hp : pickFirst tl with
    | none =>
      rw [hp] at h
      dsimp only at h
      have : hd = e := Option.some.inj h
      rw [← this]
      simp
    | some b =>
      rw [hp] at h
      dsimp only at h
      split_ifs at h
      · have : b = e := Option.some.inj h
        rw [← this]
        exact List.mem_cons_of_mem _ (ih b hp)
      · have : hd = e := Option.some.inj h
        rw [← this]
        simp

theorem claim_go_met
    (getSub : String → Option (List (String × String))) (wid : String) (now : Nat) :
    ∀ (ts : List String) (queue : List QueueEntry) (e : QueueEntry)
      (q' : List QueueEntry),
      claim_task_go getSub wid now queue ts = some (e, q') →
      dependencies_met getSub e.task_type e.submission_id = true := by
  intro ts
  induction ts with
  | nil => intro queue e q' h; simp [claim_task_go] at h
  | cons t ts ih =>
    intro queue e q' h
    simp only [claim_task_go] at h
    cases hp : pickFirst (queue.filter (fun x => x.status == "pending" && x.task_type == t)) with
    | none =>
      rw [hp] at h
      dsimp only at h
      exact ih queue e q' h
    | some e0 =>
      rw [hp] at h
      dsimp only at h
      have hmem := pickFirst_mem _ e0 hp
      have hty : e0.task_type = t := by
        have := (List.mem_filter.mp hmem).2
        simp only [Bool.and_eq_true, beq_iff_eq] at this
        exact this.2
      by_cases hdep : dependencies_met getSub t e0.submission_id = true
      · rw [if_pos hdep] at h
        have he := (Prod.mk.inj (Option.some.inj h)).1
        rw [← he]
        show dependencies_met getSub e0.task_type e0.submission_id = true
        rw [hty]
        exact hdep
      · rw [if_neg hdep] at h
        exact ih _ e q' h

/-- Claim C2 — worker dependency gating, corrected.  The worker claims a task
only after every prerequisite in the **code's** registry (`TASK_DEPENDENCIES`
in `src/workers.py`) is `completed` on the same submission; for
`subtopics_generation`, `summarization`, `insides` and `prefix_tree` the sole
prerequisite is `split_topic_generation`, but `mindmap`'s sole prerequisite
is `subtopics_generation` — not `split_topic_generation` as the spec's
registry says — so `mindmap` is *not* claimable as soon as
`split_topic_generation` completes (see `C2_counterexample`). -/
theorem C2_worker_dependency_gate :
    (∀ (queue : List QueueEntry)
        (getSub : String → Option (List (String × String)))
        (wid : String) (now : Nat) (e : QueueEntry) (q' : List QueueEntry),
      claim_task queue getSub wid now = some (e, q') →
      dependencies_met getSub e.task_type e.submission_id = true) ∧
    lookupD TASK_DEPENDENCIES "subtopics_generation" [] = ["split_topic_generation"] ∧
    lookupD TASK_DEPENDENCIES "summarization" [] = ["split_topic_generation"] ∧
    lookupD TASK_DEPENDENCIES "insides" [] = ["split_topic_generation"] ∧
    lookupD TASK_DEPENDENCIES "prefix_tree" [] = ["split_topic_generation"] ∧
    lookupD TASK_DEPENDENCIES "mindmap" [] = ["subtopics_generation"] :=
  ⟨fun queue getSub wid now e q' h => claim_go_met getSub wid now claimOrder queue e q' h,
    rfl, rfl, rfl, rfl, rfl⟩

/-- Witness for C2 at a concrete input: a single pending
`split_topic_generation` entry is claimed (its dependency list is empty), and
the claimed entry indeed has its dependencies met. -/
theorem C2_witness :
    dependencies_met (fun _ => some []) "split_topic_generation" "s" = true :=
  C2_worker_dependency_gate.1
    [⟨0, "s", "split_topic_generation", 1, "pending", 0, none, none, none, 0, none⟩]
    (fun _ => some []) "w" 7
    ⟨0, "s", "split_topic_generation", 1, "processing", 0, some 7, none, some "w", 0, none⟩
    [⟨0, "s", "split_topic_generation", 1, "processing", 0, some 7, none, some "w", 0, none⟩]
    rfl

/-- Counterexample for C2 as frozen: with `split_topic_generation` completed
but `subtopics_generation` still pending, `mindmap`'s dependencies are not
met and a pending `mindmap` entry is not claimable — the claim's "each of
those five becomes claimable as soon as `split_topic_generation` is
completed" fails for `mindmap`. -/
theorem C2_counterexample :
    dependencies_met
        (fun _ => some [("split_topic_generation", "completed"),
          ("subtopics_generation", "pending")]) "mindmap" "s" = false ∧
    claim_task [⟨0, "s", "mindmap", 3, "pending", 0, none, none, none, 0, none⟩]
        (fun _ => some [("split_topic_generation", "completed"),
          ("subtopics_generation", "pending")]) "w" 0 = none := by
  constructor
  · rfl
  · rfl

/-- Claim C3 — `POST /api/submit` task enqueueing, corrected.
`_queue_all_tasks` inserts exactly one pending entry with `retry_count = 0`
for each of **five** task types — `split_topic_generation` (priority 1),
`subtopics_generation` (2), `summarization` (3), `mindmap` (3),
`prefix_tree` (3) — and none for `insides`, which the frozen claim includes
(see `C3_counterexample`). -/
theorem C3_queue_all_tasks (submission_id : String) (now : Nat) :
    (queue_all_tasks submission_id now).map (fun e => (e.task_type, e.priority))
      = [("split_topic_generation", 1), ("subtopics_generation", 2),
         ("summarization", 3), ("mindmap", 3), ("prefix_tree", 3)] ∧
    (queue_all_tasks submission_id now).map (fun e => (e.status, e.retry_count))
      = [("pending", 0), ("pending", 0), ("pending", 0), ("pending", 0),
         ("pending", 0)] := by
  constructor
  · rfl
  · rfl

/-- Counterexample for C3 as frozen: no `insides` entry is enqueued (the
claim requires exactly one). -/
theorem C3_counterexample :
    (queue_all_tasks "s" 0).countP (fun e => e.task_type == "insides") = 0 ∧
      (0 : Nat) ≠ 1 := by
  constructor
  · rfl
  · decide

/-- Claim C4 — `expand_recalculation_tasks`, corrected.  The function works
over the **legacy** storage registry (`text_splitting`, `topic_extraction`,
`summarization`, `mindmap`, `insides`): unknown names — including
`split_topic_generation` and `prefix_tree` — are dropped, so requesting
them yields the empty list rather than the canonical task set; `all` (or no
selection) yields the five legacy names; downstream closure works only over
the legacy graph (e.g. `topic_extraction` pulls in `summarization` and
`mindmap`, `text_splitting` pulls in everything, `mindmap` stays a leaf). -/
theorem C4_expand_recalculation_legacy :
    expand_recalculation_tasks (some ["split_topic_generation"]) = [] ∧
    expand_recalculation_tasks (some ["prefix_tree"]) = [] ∧
    expand_recalculation_tasks (some ["all"]) = storage_task_names ∧
    expand_recalculation_tasks none = storage_task_names ∧
    expand_recalculation_tasks (some ["mindmap"]) = ["mindmap"] ∧
    expand_recalculation_tasks (some ["summarization"]) = ["summarization"] ∧
    expand_recalculation_tasks (some ["insides"]) = ["insides"] ∧
    expand_recalculation_tasks (some ["topic_extraction"])
      = ["topic_extraction", "summarization", "mindmap"] ∧
    expand_recalculation_tasks (some ["text_splitting"]) = storage_task_names := by
  refine ⟨?_, ?_, ?_, ?_, ?_, ?_, ?_, ?_, ?_⟩ <;> rfl

/-- Counterexample for C4 as frozen: requesting `split_topic_generation`
yields the empty list, not the six canonical tasks. -/
theorem C4_counterexample :
    expand_recalculation_tasks (some ["split_topic_generation"]) = [] ∧
    (([] : List String) ≠ ["split_topic_generation", "subtopics_generation",
      "summarization", "mindmap", "insides", "prefix_tree"]) := by
  constructor
  · rfl
  · decide

theorem lookup_setTaskStatus_ne (k name status : String) (h : k ≠ name) :
    ∀ (t : List (String × String)),
      (setTaskStatus t name status).lookup k = t.lookup k := by
  intro t
  induction t with
  | nil =>
    simp only [setTaskStatus, List.lookup]
    have : (k == name) = false := by
      simp only [beq_eq_false_iff_ne, ne_eq]
      exact h
    rw [this]
  | cons hd tl ih =>
    obtain ⟨k', v⟩ := hd
    simp only [setTaskStatus]
    by_cases hk : k' = name
    · rw [if_pos hk]
      subst hk
      simp only [List.lookup]
      have : (k == k') = false := by
        simp only [beq_eq_false_iff_ne, ne_eq]
        exact h
      rw [this]
    · rw [if_neg hk]
      simp only [List.lookup]
      cases hkk : (k == k') with
      | true => rfl
      | false => exact ih

theorem lookup_setTaskStatus_self (name status : String) :
    ∀ (t : List (String × String)),
      (setTaskStatus t name status).lookup name = some status := by
  intro t
  induction t with
  | nil => simp [setTaskStatus, List.lookup]
  | cons hd tl ih =>
    obtain ⟨k', v⟩ := hd
    simp only [setTaskStatus]
    by_cases hk : k' = name
    · rw [if_pos hk]
      subst hk
      simp [List.lookup]
    · rw [if_neg hk]
      simp only [List.lookup]
      have : (name == k') = false := by
        simp only [beq_eq_false_iff_ne, ne_eq]
        exact fun hh => hk hh.symm
      rw [this]
      exact ih

theorem lookup_setTaskStatus_pending (k name : String)
    (t : List (String × String)) (h : t.lookup k = some "pending") :
    (setTaskStatus t name "pending").lookup k = some "pending" := by
  by_cases hk : k = name
  · subst hk
    exact lookup_setTaskStatus_self k "pending" t
  · rw [lookup_setTaskStatus_ne k name "pending" hk t]
    exact h

theorem foldl_setPending (k : String) :
    ∀ (names : List String) (t : List (String × String)),
      t.lookup k = some "pending" →
      (names.foldl (fun acc n => setTaskStatus acc n "pending") t).lookup k
        = some "pending" := by
  intro names
  induction names with
  | nil => intro t h; exact h
  | cons n ns ih =>
    intro t h
    simp only [List.foldl_cons]
    exact ih _ (lookup_setTaskStatus_pending k n t h)

theorem lookup_mem_values (k v : String) :
    ∀ (t : List (String × String)), t.lookup k = some v → v ∈ t.map (·.2) := by
  intro t
  induction t with
  | nil => intro h; simp [List.lookup] at h
  | cons hd tl ih =>
    obtain ⟨k', v'⟩ := hd
    intro h
    simp only [List.lookup] at h
    cases hkk : (k == k') with
    | true =>
      rw [hkk] at h
      have : v' = v := Option.some.inj h
      rw [← this]
      simp
    | false =>
      rw [hkk] at h
      exact List.mem_cons_of_mem _ (ih h)

theorem pending_not_completed (t : List (String × String)) (k : String)
    (h : t.lookup k = some "pending") : get_overall_status t ≠ "completed" := by
  have hmem : "pending" ∈ t.map (·.2) := lookup_mem_values k "pending" t h
  have hall : (t.map (·.2)).all (fun s => s == "completed") = false := by
    rw [List.all_eq_false]
    exact ⟨"pending", hmem, by decide⟩
  simp only [get_overall_status, hall, Bool.false_eq_true, if_false]
  split_ifs <;> decide

/-- The submission task-status states reachable from
`SubmissionsStorage.create` under the mutations the worker loop and the
task-queue endpoints perform: the worker updates only the statuses of the
task types it can claim (`TASK_HANDLERS` keys, to `processing`, `completed`
or `failed`), and `clear_results` resets the tasks of an expanded
recalculation list to `pending`. -/
inductive TasksReachable : List (String × String) → Prop where
  | init : TasksReachable createTaskStatuses
  | worker_step (tasks : List (String × String)) (name status : String) :
      TasksReachable tasks → name ∈ taskHandlerKeys →
      status ∈ (["processing", "completed", "failed"] : List String) →
      TasksReachable (setTaskStatus tasks name status)
  | clear_step (tasks : List (String × String)) (req : Option (List String)) :
      TasksReachable tasks →
      TasksReachable ((expand_recalculation_tasks req).foldl
        (fun acc n => setTaskStatus acc n "pending") tasks)

theorem reachable_legacy_pending :
    ∀ (tasks : List (String × String)), TasksReachable tasks →
      tasks.lookup "text_splitting" = some "pending" ∧
      tasks.lookup "topic_extraction" = some "pending" := by
  intro tasks h
  induction h with
  | init => exact ⟨rfl, rfl⟩
  | worker_step tasks name status _ hname _ ih =>
    have hnames : "text_splitting" ≠ name ∧ "topic_extraction" ≠ name := by
      simp only [taskHandlerKeys, List.mem_cons, List.not_mem_nil, or_false] at hname
      rcases hname with rfl | rfl | rfl | rfl | rfl | rfl <;> exact ⟨by decide, by decide⟩
    constructor
    · rw [lookup_setTaskStatus_ne _ _ _ hnames.1 tasks]
      exact ih.1
    · rw [lookup_setTaskStatus_ne _ _ _ hnames.2 tasks]
      exact ih.2
  | clear_step tasks req _ ih =>
    exact ⟨foldl_setPending _ _ tasks ih.1, foldl_setPending _ _ tasks ih.2⟩

/-- Claim C9 — confirmed.  A submission created by `SubmissionsStorage.create`
and mutated only by the worker loop and the task-queue endpoints keeps its
`text_splitting` and `topic_extraction` task entries `pending` forever: the
worker only touches the statuses of the six handler task types, the initial
enqueue and the admin endpoints never create queue entries of the two legacy
types (so no claim ever leads to updating them), and `clear_results` only
resets to `pending` — hence `get_overall_status` can never return
`"completed"`. -/
theorem C9_overall_status_never_completed :
    (∀ (tasks : List (String × String)), TasksReachable tasks →
      tasks.lookup "text_splitting" = some "pending" ∧
      tasks.lookup "topic_extraction" = some "pending" ∧
      get_overall_status tasks ≠ "completed") ∧
    (∀ (submission_id : String) (now : Nat),
      "text_splitting" ∉ (queue_all_tasks submission_id now).map (·.task_type) ∧
      "topic_extraction" ∉ (queue_all_tasks submission_id now).map (·.task_type)) ∧
    (∀ t ∈ ALLOWED_TASKS,
      "text_splitting" ∉ expand_recalculation_tasks (some [t]) ∧
      "topic_extraction" ∉ expand_recalculation_tasks (some [t])) := by
  refine ⟨?_, ?_, ?_⟩
  · intro tasks h
    obtain ⟨h1, h2⟩ := reachable_legacy_pending tasks h
    exact ⟨h1, h2, pending_not_completed tasks _ h1⟩
  · intro sid now
    have hmap : (queue_all_tasks sid now).map (·.task_type)
        = ["split_topic_generation", "subtopics_generation", "summarization",
           "mindmap", "prefix_tree"] := rfl
    rw [hmap]
    exact ⟨by decide, by decide⟩
  · intro t ht
    simp only [ALLOWED_TASKS, List.mem_cons, List.not_mem_nil, or_false] at ht
    rcases ht with rfl | rfl | rfl | rfl | rfl <;> exact ⟨by decide, by decide⟩

/-- Witness for C9 at the initial state: the freshly created submission is
reachable and its overall status is not `completed`. -/
theorem C9_witness :
    createTaskStatuses.lookup "text_splitting" = some "pending" ∧
    createTaskStatuses.lookup "topic_extraction" = some "pending" ∧
    get_overall_status createTaskStatuses ≠ "completed" :=
  C9_overall_status_never_completed.1 createTaskStatuses TasksReachable.init

/-- Claim C10 — confirmed.  `update_task_status` writes the `error` field
only when a truthy (non-`None`, non-empty) error argument is passed, so a
falsy error argument leaves any previously stored error in place; a task
that failed with an error and is later re-run to completion ends up
`completed` while still carrying the stale error message. -/
theorem C10_update_never_clears_error :
    (∀ (rec : TaskState) (status : String) (now : Nat) (error : Option String),
      (error = none ∨ error = some "") →
      (update_task_status rec status now error).error = rec.error) ∧
    update_task_status
        (update_task_status ⟨"pending", none, none, none⟩ "failed" 1 (some "boom"))
        "completed" 2 none
      = ⟨"completed", none, some 2, some "boom"⟩ := by
  constructor
  · intro rec status now error h
    have he : errTruthy error = false := by
      rcases h with rfl | rfl <;> rfl
    simp only [update_task_status, he, Bool.false_eq_true, if_false]
    split_ifs <;> rfl
  · rfl

/-- Witness for C10 at a concrete input: completing a task with no error
argument leaves the stored error untouched. -/
theorem C10_witness :
    (update_task_status ⟨"pending", none, none, none⟩ "completed" 5 none).error
      = none :=
  C10_update_never_clears_error.1 ⟨"pending", none, none, none⟩ "completed" 5 none
    (Or.inl rfl)

end TxtMap
